import Mathlib

/-!
# Verification of the LTFAT factorization core (`iwfac.c`, `gabdual.c`)

Shallow embedding of the inverse window factorization `iwfac` (plan
init / execute / done), and of the drivers `gabdual_long` and
`gabdual_fir`, translated from `src/src/iwfac.c` and
`src/src/gabdual.c`.  Machine integers (`ltfatInt`) are modelled as
`Int` for the public argument checks and as `Nat` for the validated,
positive plan fields.  Complex buffers are total functions `Nat → ℂ`;
a C pointer that may be `NULL` is an `Option`.  The FFT backend is an
external collaborator, so the in-place length-d transform is a
parameter of the execute model; the concrete unnormalized DFT used
for the round-trip statements is defined below (`dftBwd`, `dftFwd`).
Heap traffic that the spec talks about (allocation sizes, releases)
is modelled as an explicit event trace.
-/

open Complex

namespace Ltfat

/-- Status codes of the library (spec section 6; the C constants
`LTFATERR_SUCCESS`, `LTFATERR_NOTPOSARG`, `LTFATERR_BADARG`,
`LTFATERR_NOTAFRAME`, `LTFATERR_NULLPOINTER`, ...). -/
inductive LtfatStatus where
  | Success
  | NotPositiveArg
  | BadArgument
  | NotAFrame
  | NullArg
  | AllocationFailed
  | PlanCreation
  | InternalFailure
  deriving DecidableEq, Repr

open LtfatStatus

/-- Resource events: the model of `ltfat_malloc` (with the element
count requested), `ltfat_free` and `LTFAT_FFTW(destroy_plan)`. -/
inductive ResourceEvent where
  | alloc (n : Nat)
  | free
  | destroyFftPlan
  deriving DecidableEq, Repr

/-- The helper `positiverem(a,b)`: the non-negative remainder of `a`
modulo `b`.  Modelled from the spec: the helper itself lives in the
library headers, not under `src/`; spec section 4.4 step 3 calls it
the "non-negative modulus", which for a positive modulus is exactly
`Int.emod`. -/
def positiverem (a b : Int) : Int := a % b

/-- The plan object `struct iwfac_plan` from `iwfac.c` (integer
fields; the C struct additionally caches `scaling`, the scratch
buffer `sbuf` of `2·d` reals and the FFTW plan `p_before`, which are
derived data modelled by `IwfacPlan.scaling` and by the `dft`
parameter of the execute model). -/
structure IwfacPlan where
  b : Nat
  c : Nat
  p : Nat
  q : Nat
  d : Nat
  a : Nat
  M : Nat
  L : Nat
  deriving DecidableEq, Repr

/-- The scaling constant stored by `iwfac_init`:
`plan->scaling = 1.0 / sqrt((double)M) / plan->d` (line 68 of
`iwfac.c`), in exact real arithmetic. -/
noncomputable def IwfacPlan.scaling (pl : IwfacPlan) : ℝ :=
  1 / Real.sqrt pl.M / pl.d

/-- Model of `iwfac_init(L, a, M, flags, &plan)` from `iwfac.c` lines 42-90:
checks `a > 0` and `M > 0` (else `NOTPOSARG`), then
`L > 0 && !(L % lcm(a,M))` (else `BADARG`), then fills in the derived
lattice fields.  Allocation and FFTW plan creation are modelled as
succeeding (their failures are environmental). -/
def iwfac_init (L a M : Int) : Except LtfatStatus IwfacPlan :=
  if ¬ a > 0 then .error NotPositiveArg
  else if ¬ M > 0 then .error NotPositiveArg
  else if ¬ (L > 0 ∧ L % Int.lcm a M = 0) then .error BadArgument
  else
    let c : Int := Int.gcd a M
    .ok { b := (L / M).toNat
          c := c.toNat
          p := (a / c).toNat
          q := (M / c).toNat
          d := ((L / M) / (a / c)).toNat
          a := a.toNat
          M := M.toNat
          L := L.toNat }

/-- Validity of a plan: the structural facts about the derived
lattice parameters that hold after a successful `iwfac_init`
(spec section 3): `a = c·p`, `M = c·q`, `L = c·p·q·d`, `b = p·d`,
`gcd(p,q) = 1`, all factors positive. -/
def IwfacPlan.valid (pl : IwfacPlan) : Prop :=
  0 < pl.c ∧ 0 < pl.p ∧ 0 < pl.q ∧ 0 < pl.d ∧
  pl.a = pl.c * pl.p ∧ pl.M = pl.c * pl.q ∧
  pl.L = pl.c * pl.p * pl.q * pl.d ∧ pl.b = pl.p * pl.d ∧
  Nat.Coprime pl.p pl.q

instance (pl : IwfacPlan) : Decidable pl.valid := by
  unfold IwfacPlan.valid Nat.Coprime; infer_instance

/-- The input stride `ld3 = c * p * q * R` (line 113 of `iwfac.c`),
in complex elements. -/
def IwfacPlan.ld3 (pl : IwfacPlan) (R : Nat) : Nat := pl.c * pl.p * pl.q * R

/-- The value `negrem = positiverem(k * M - l * a, L)` (line 124 of `iwfac.c`),
as a natural number (the value is non-negative). -/
def negremN (pl : IwfacPlan) (l k : Nat) : Nat :=
  (positiverem ((k : Int) * pl.M - (l : Int) * pl.a) pl.L).toNat

/-- The output index `r + rem + L * w` with
`rem = (negrem + s * p * M) % L` (lines 135-141 of `iwfac.c`). -/
def posIdx (pl : IwfacPlan) (r w l k s : Nat) : Nat :=
  r + (negremN pl l k + s * pl.p * pl.M) % pl.L + pl.L * w

/-- The remainder `rem` alone (the residue written inside one
`(r, w)` block). -/
def remFun (pl : IwfacPlan) (l k s : Nat) : Nat :=
  (negremN pl l k + s * pl.p * pl.M) % pl.L

/-- Closed form of the input pointer offset at iteration
`(r, w, l, k)`: the pointer `gfp` starts at `gf` and advances by one
complex element after each `(l, k)` pair, so after
`((r·R + w)·q + l)·p + k` completed inner iterations its offset is
exactly this value (proved in `iwfac_core_eq_applyWrites`). -/
def tIdx (pl : IwfacPlan) (R : Nat) (r w l k : Nat) : Nat :=
  ((r * R + w) * pl.q + l) * pl.p + k

/-- The scratch buffer contents before the transform: entry `s` is
`gfp[s * ld3] * scaling` (complex load of lines 127-128 of
`iwfac.c`), where `t` is the current pointer offset in complex
elements. -/
noncomputable def sbufLoad (pl : IwfacPlan) (R : Nat) (gf : Nat → ℂ)
    (t : Nat) : Nat → ℂ :=
  fun s => (pl.scaling : ℂ) * gf (t + s * pl.ld3 R)

/-- One `(r, w, l, k)` iteration of the execute loop (lines 122-145
of `iwfac.c`): load and scale the scratch buffer, run the in-place
length-d transform `dft`, write the `d` outputs at their residues,
and advance the input pointer by one complex element.  The state is
the pair (pointer offset, output buffer); `f` projects a complex
result onto the output sample type (identity in the complex regime,
real part in the real regime). -/
noncomputable def iwfacInner {α : Type} (dft : Nat → (Nat → ℂ) → Nat → ℂ)
    (pl : IwfacPlan) (R : Nat) (gf : Nat → ℂ) (f : ℂ → α)
    (r w l k : Nat) (st : Nat × (Nat → α)) : Nat × (Nat → α) :=
  let out := dft pl.d (sbufLoad pl R gf st.1)
  (st.1 + 1,
    (List.range pl.d).foldl
      (fun g s => Function.update g (posIdx pl r w l k s) (f (out s))) st.2)

/-- The four nested loops of `iwfac_execute` (lines 116-148 of
`iwfac.c`): `r ∈ [0,c)`, `w ∈ [0,R)`, `l ∈ [0,q)`, `k ∈ [0,p)`,
threading the running input pointer offset and the output buffer. -/
noncomputable def iwfac_core {α : Type} (dft : Nat → (Nat → ℂ) → Nat → ℂ)
    (pl : IwfacPlan) (R : Nat) (gf : Nat → ℂ) (f : ℂ → α)
    (g0 : Nat → α) : Nat → α :=
  ((List.range pl.c).foldl (fun st r =>
    (List.range R).foldl (fun st w =>
      (List.range pl.q).foldl (fun st l =>
        (List.range pl.p).foldl
          (fun st k => iwfacInner dft pl R gf f r w l k st) st) st) st)
    (0, g0)).2

/-- Model of `iwfac_execute(plan, gf, R, g)` in the complex regime
(lines 92-152 of `iwfac.c`): `NULLPOINTER` when any of the three
pointers is null, `NOTPOSARG` when `R ≤ 0`, otherwise the loop nest
runs to completion and the status is `SUCCESS`. -/
noncomputable def iwfac_execute (dft : Nat → (Nat → ℂ) → Nat → ℂ)
    (plan? : Option IwfacPlan) (gf? : Option (Nat → ℂ)) (R : Int)
    (g? : Option (Nat → ℂ)) : LtfatStatus × Option (Nat → ℂ) :=
  match plan?, gf?, g? with
  | some pl, some gf, some g0 =>
    if ¬ R > 0 then (NotPositiveArg, some g0)
    else (Success, some (iwfac_core dft pl R.toNat gf id g0))
  | _, _, _ => (NullArg, g?)

/-- Model of `iwfac_execute` in the real regime (`#else` branch, line 141 of
`iwfac.c`): only the real part `sbuf[2*s]` is stored. -/
noncomputable def iwfac_execute_real (dft : Nat → (Nat → ℂ) → Nat → ℂ)
    (plan? : Option IwfacPlan) (gf? : Option (Nat → ℂ)) (R : Int)
    (g? : Option (Nat → ℝ)) : LtfatStatus × Option (Nat → ℝ) :=
  match plan?, gf?, g? with
  | some pl, some gf, some g0 =>
    if ¬ R > 0 then (NotPositiveArg, some g0)
    else (Success, some (iwfac_core dft pl R.toNat gf Complex.re g0))
  | _, _, _ => (NullArg, g?)

/-- The one-shot driver `iwfac(gf, L, R, a, M, g)` (lines 20-40 of
`iwfac.c`): init, then execute, the first failure is returned. -/
noncomputable def iwfac (dft : Nat → (Nat → ℂ) → Nat → ℂ)
    (gf? : Option (Nat → ℂ)) (L R a M : Int) (g? : Option (Nat → ℂ)) :
    LtfatStatus × Option (Nat → ℂ) :=
  match iwfac_init L a M with
  | .error e => (e, g?)
  | .ok pl => iwfac_execute dft (some pl) gf? R g?

/-- Model of `iwfac_done(&plan)` (lines 154-167 of `iwfac.c`).  The handle is
a pointer to the plan pointer: `none` models a null `pout`,
`some none` a valid `pout` holding `NULL`.  On success the FFTW plan
is destroyed, the scratch buffer and the plan struct are freed, and
`*pout` is set to `NULL`. -/
def iwfac_done (handle : Option (Option IwfacPlan)) :
    LtfatStatus × Option (Option IwfacPlan) × List ResourceEvent :=
  match handle with
  | none => (NullArg, none, [])
  | some none => (NullArg, some none, [])
  | some (some _) => (Success, some none, [.destroyFftPlan, .free, .free])

/-- The unnormalized backward (inverse-sign) length-`d` DFT: the
contract of the `FFTW_BACKWARD` plan created at lines 73-75 of
`iwfac.c` (spec section 4.2). -/
noncomputable def dftBwd (d : Nat) (x : Nat → ℂ) (j : Nat) : ℂ :=
  ∑ s ∈ Finset.range d, x s * Complex.exp (2 * Real.pi * Complex.I * s * j / d)

/-- The unnormalized forward length-`d` DFT (the `wfac` direction,
spec section 4.2). -/
noncomputable def dftFwd (d : Nat) (x : Nat → ℂ) (s : Nat) : ℂ :=
  ∑ j ∈ Finset.range d, x j * Complex.exp (-(2 * Real.pi * Complex.I * s * j / d))

/-- Modelled from the spec: the forward factorization `wfac` is not
under `src/`; spec section 4.3 gives
`gf[s,k,l,r,w] = Σ_j g[(r + (k·M − l·a + j·p·M) mod L) + L·w]
· exp(−2πi·s·j/d) · sqrt(M)/d`, and section 4.4 fixes the linear
layout read back by `iwfac` (stride `ld3 = c·p·q·R` along `s`, one
complex element per `(l, k)` pair): linear index
`n = tIdx(r,w,l,k) + s·ld3`.  A linear index is decoded accordingly. -/
noncomputable def wfacM (pl : IwfacPlan) (R : Nat) (g : Nat → ℂ) :
    Nat → ℂ := fun n =>
  let t := n % pl.ld3 R
  let s := n / pl.ld3 R
  let r := t / (R * pl.q * pl.p)
  let w := (t / (pl.q * pl.p)) % R
  let l := (t / pl.p) % pl.q
  let k := t % pl.p
  (((Real.sqrt pl.M / pl.d : ℝ)) : ℂ) *
    ∑ j ∈ Finset.range pl.d,
      g (r + (((k : Int) * pl.M - (l : Int) * pl.a + (j : Int) * pl.p * pl.M) % pl.L).toNat + pl.L * w) *
        Complex.exp (-(2 * Real.pi * Complex.I * s * j / pl.d))

/-- Result of a driver call: status, produced output buffer (if
any), and the heap/plan events in order. -/
structure GabdualResult where
  status : LtfatStatus
  gd : Option (Nat → ℂ)
  events : List ResourceEvent

/-- Model of `gabdual_long(g, L, R, a, M, gd)` from `gabdual.c` lines 5-41:
validates `R > 0` (`NOTPOSARG`), `M ≥ a` (`NOTAFRAME`),
`L > 0 && !(L % lcm(a,M))` (`BADARG`); allocates the two factor
buffers `gf` and `gdf` of `L·R` complex elements each; runs
`wfac` (checked), then `gabdual_fac` (whose returned status the C
code discards: line 27 has no `CHECKSTATUS`), then `iwfac`
(checked); `LTFAT_SAFEFREEALL(gdf, gf)` releases both buffers on
every path after allocation.  `facF` is the factor-domain solve
(`gabdual_fac`, not under `src/`) and `facStatus` the status it
reports, which the code ignores.  Modelled from the spec where the
callees are not under `src/`: `wfac` can fail exactly with the
lattice/plan-init errors (spec section 4.3), which coincide with the
`iwfac_init` checks. -/
noncomputable def gabdual_long (facF : (Nat → ℂ) → Nat → ℂ)
    (facStatus : LtfatStatus) (g : Nat → ℂ) (L R a M : Int) :
    GabdualResult :=
  if ¬ R > 0 then ⟨NotPositiveArg, none, []⟩
  else if ¬ M ≥ a then ⟨NotAFrame, none, []⟩
  else if ¬ (L > 0 ∧ L % Int.lcm a M = 0) then ⟨BadArgument, none, []⟩
  else
    match iwfac_init L a M with
    | .error e =>
        ⟨e, none, [.alloc (L * R).toNat, .alloc (L * R).toNat, .free, .free]⟩
    | .ok pl =>
        ⟨Success,
          some (iwfac_core dftBwd pl R.toNat (facF (wfacM pl R.toNat g)) id
            (fun _ => 0)),
          [.alloc (L * R).toNat, .alloc (L * R).toNat, .free, .free]⟩

/-- Modelled from the spec: `fir2long` (periodic zero-extension
centered on the natural origin, spec section 4.7) is not under
`src/`.  The first `⌈gl/2⌉` samples stay at the head, the remaining
`⌊gl/2⌋` samples go to the tail of the length-`L` buffer, zeros in
between. -/
def fir2long (g : Nat → ℂ) (gl L : Nat) : Nat → ℂ := fun n =>
  if n < (gl + 1) / 2 then g n
  else if L - (gl - (gl + 1) / 2) ≤ n then g (n - (L - gl)) else 0

/-- Modelled from the spec: `long2fir` (centered truncation, spec
section 4.7) is not under `src/`.  Sample `n < gl` comes from the
head for `n < ⌈gl/2⌉` and from the tail otherwise. -/
def long2fir (gLong : Nat → ℂ) (L gl : Nat) : Nat → ℂ := fun n =>
  if n < (gl + 1) / 2 then gLong n else gLong (n + (L - gl))

/-- Model of `gabdual_fir(g, gl, L, a, M, gdl, gd)` from `gabdual.c`
lines 44-69: null checks on `g` and `gd`, positivity of `gl`, `L`,
`gdl`, `L ≥ gl ∧ L ≥ gdl`; then allocate the length-`L` temporary,
`fir2long` into it, `gabdual_long` with `R = 1` in place on it,
`long2fir` out of it; `if (tmpLong) ltfat_free(tmpLong)` on every
exit. `gdNull` models nullness of the output pointer. -/
noncomputable def gabdual_fir (facF : (Nat → ℂ) → Nat → ℂ)
    (facStatus : LtfatStatus) (g? : Option (Nat → ℂ)) (gdNull : Bool)
    (gl L a M gdl : Int) : GabdualResult :=
  match g?, gdNull with
  | none, _ => ⟨NullArg, none, []⟩
  | some _, true => ⟨NullArg, none, []⟩
  | some g, false =>
    if ¬ gl > 0 then ⟨NotPositiveArg, none, []⟩
    else if ¬ L > 0 then ⟨NotPositiveArg, none, []⟩
    else if ¬ gdl > 0 then ⟨NotPositiveArg, none, []⟩
    else if ¬ (L ≥ gl ∧ L ≥ gdl) then ⟨BadArgument, none, []⟩
    else
      let tmp := fir2long g gl.toNat L.toNat
      let res := gabdual_long facF facStatus tmp L 1 a M
      match res.status, res.gd with
      | Success, some gdLong =>
          ⟨Success, some (long2fir gdLong L.toNat gdl.toNat),
            .alloc L.toNat :: res.events ++ [.free]⟩
      | Success, none =>
          ⟨Success, none, .alloc L.toNat :: res.events ++ [.free]⟩
      | e, _ => ⟨e, none, .alloc L.toNat :: res.events ++ [.free]⟩

/-! ## Write-list presentation of the execute loop -/

/-- Apply a list of (index, complex value) writes to a buffer, in
order, through the sample projection `f`. -/
def applyWrites {α : Type} (f : ℂ → α) (g0 : Nat → α)
    (ws : List (Nat × ℂ)) : Nat → α :=
  ws.foldl (fun g iv => Function.update g iv.1 (f iv.2)) g0

/-- The `d` writes performed by one `(r, w, l, k)` iteration whose
input pointer offset is `t`. -/
noncomputable def innerWrites (dft : Nat → (Nat → ℂ) → Nat → ℂ)
    (pl : IwfacPlan) (R : Nat) (gf : Nat → ℂ) (t r w l k : Nat) :
    List (Nat × ℂ) :=
  (List.range pl.d).map
    fun s => (posIdx pl r w l k s, dft pl.d (sbufLoad pl R gf t) s)

/-- All writes of one `iwfac_execute` call, in loop order, with the
input pointer offset in closed form. -/
noncomputable def iwfacWrites (dft : Nat → (Nat → ℂ) → Nat → ℂ)
    (pl : IwfacPlan) (R : Nat) (gf : Nat → ℂ) : List (Nat × ℂ) :=
  (List.range pl.c).flatMap fun r => (List.range R).flatMap fun w =>
  (List.range pl.q).flatMap fun l => (List.range pl.p).flatMap fun k =>
    innerWrites dft pl R gf (tIdx pl R r w l k) r w l k

theorem applyWrites_cons {α : Type} (f : ℂ → α) (g0 : Nat → α)
    (hd : Nat × ℂ) (tl : List (Nat × ℂ)) :
    applyWrites f g0 (hd :: tl) =
      applyWrites f (Function.update g0 hd.1 (f hd.2)) tl := rfl

theorem applyWrites_append {α : Type} (f : ℂ → α) (g0 : Nat → α)
    (ws1 ws2 : List (Nat × ℂ)) :
    applyWrites f g0 (ws1 ++ ws2) =
      applyWrites f (applyWrites f g0 ws1) ws2 :=
  List.foldl_append ..

theorem applyWrites_not_mem {α : Type} {f : ℂ → α} {g0 : Nat → α}
    {ws : List (Nat × ℂ)} {i : Nat} (h : i ∉ ws.map Prod.fst) :
    applyWrites f g0 ws i = g0 i := by
  induction ws generalizing g0 with
  | nil => rfl
  | cons hd tl ih =>
    simp only [List.map_cons, List.mem_cons, not_or] at h
    rw [applyWrites_cons, ih h.2, Function.update_noteq h.1]

theorem applyWrites_mem {α : Type} {f : ℂ → α} {g0 : Nat → α}
    {ws : List (Nat × ℂ)} {i : Nat} {v : ℂ} (h : (i, v) ∈ ws)
    (hnd : (ws.map Prod.fst).Nodup) : applyWrites f g0 ws i = f v := by
  induction ws generalizing g0 with
  | nil => exact absurd h (List.not_mem_nil _)
  | cons hd tl ih =>
    rw [List.map_cons, List.nodup_cons] at hnd
    rcases List.mem_cons.1 h with h1 | h1
    · subst h1
      rw [applyWrites_cons, applyWrites_not_mem hnd.1,
        Function.update_same]
    · rw [applyWrites_cons]; exact ih h1 hnd.2

theorem nodup_flatMap_of_inj {β γ : Type} {l : List β} {F : β → List γ}
    (hl : l.Nodup) (h1 : ∀ a ∈ l, (F a).Nodup)
    (h2 : ∀ a ∈ l, ∀ b ∈ l, ∀ x, x ∈ F a → x ∈ F b → a = b) :
    (l.flatMap F).Nodup := by
  induction l with
  | nil => simp
  | cons hd tl ih =>
    rw [List.flatMap_cons]
    refine List.Nodup.append (h1 hd (List.mem_cons_self ..))
      (ih (List.nodup_cons.1 hl).2
        (fun a ha => h1 a (List.mem_cons_of_mem _ ha))
        (fun a ha b hb => h2 a (List.mem_cons_of_mem _ ha) b
          (List.mem_cons_of_mem _ hb))) ?_
    intro x hx hx'
    rcases List.mem_flatMap.1 hx' with ⟨b, hb, hxb⟩
    have hdb : hd = b :=
      h2 hd (List.mem_cons_self ..) b (List.mem_cons_of_mem _ hb) x hx hxb
    exact (List.nodup_cons.1 hl).1 (hdb ▸ hb)

section CoreStructure

variable {α : Type} (dft : Nat → (Nat → ℂ) → Nat → ℂ) (pl : IwfacPlan)
  (R : Nat) (gf : Nat → ℂ) (f : ℂ → α)

theorem iwfacInner_eq (r w l k t : Nat) (g : Nat → α) :
    iwfacInner dft pl R gf f r w l k (t, g) =
      (t + 1, applyWrites f g (innerWrites dft pl R gf t r w l k)) := by
  simp only [iwfacInner, innerWrites, applyWrites, List.foldl_map]

theorem foldl_k_eq (r w l : Nat) (n t : Nat) (g : Nat → α) :
    (List.range n).foldl
        (fun st k => iwfacInner dft pl R gf f r w l k st) (t, g) =
      (t + n, applyWrites f g ((List.range n).flatMap
        fun k => innerWrites dft pl R gf (t + k) r w l k)) := by
  induction n with
  | zero => simp [applyWrites]
  | succ n ih =>
    rw [List.range_succ, List.foldl_append, ih, List.foldl_cons,
      List.foldl_nil, iwfacInner_eq, List.flatMap_append,
      List.flatMap_singleton, applyWrites_append]
    rfl

theorem foldl_l_eq (r w : Nat) (n t : Nat) (g : Nat → α) :
    (List.range n).foldl
        (fun st l => (List.range pl.p).foldl
          (fun st k => iwfacInner dft pl R gf f r w l k st) st) (t, g) =
      (t + n * pl.p, applyWrites f g ((List.range n).flatMap
        fun l => (List.range pl.p).flatMap
          fun k => innerWrites dft pl R gf (t + l * pl.p + k) r w l k)) := by
  induction n with
  | zero => simp [applyWrites]
  | succ n ih =>
    rw [List.range_succ, List.foldl_append, ih, List.foldl_cons,
      List.foldl_nil, foldl_k_eq, List.flatMap_append,
      List.flatMap_singleton, applyWrites_append, Nat.succ_mul,
      ← Nat.add_assoc]

theorem foldl_w_eq (r : Nat) (n t : Nat) (g : Nat → α) :
    (List.range n).foldl
        (fun st w => (List.range pl.q).foldl
          (fun st l => (List.range pl.p).foldl
            (fun st k => iwfacInner dft pl R gf f r w l k st) st) st)
        (t, g) =
      (t + n * (pl.q * pl.p), applyWrites f g ((List.range n).flatMap
        fun w => (List.range pl.q).flatMap
          fun l => (List.range pl.p).flatMap
            fun k => innerWrites dft pl R gf
              (t + w * (pl.q * pl.p) + l * pl.p + k) r w l k)) := by
  induction n with
  | zero => simp [applyWrites]
  | succ n ih =>
    rw [List.range_succ, List.foldl_append, ih, List.foldl_cons,
      List.foldl_nil, foldl_l_eq, List.flatMap_append,
      List.flatMap_singleton, applyWrites_append, Nat.succ_mul,
      ← Nat.add_assoc]

theorem foldl_r_eq (n t : Nat) (g : Nat → α) :
    (List.range n).foldl
        (fun st r => (List.range R).foldl
          (fun st w => (List.range pl.q).foldl
            (fun st l => (List.range pl.p).foldl
              (fun st k => iwfacInner dft pl R gf f r w l k st) st) st) st)
        (t, g) =
      (t + n * (R * (pl.q * pl.p)), applyWrites f g ((List.range n).flatMap
        fun r => (List.range R).flatMap
          fun w => (List.range pl.q).flatMap
            fun l => (List.range pl.p).flatMap
              fun k => innerWrites dft pl R gf
                (t + r * (R * (pl.q * pl.p)) + w * (pl.q * pl.p)
                  + l * pl.p + k) r w l k)) := by
  induction n with
  | zero => simp [applyWrites]
  | succ n ih =>
    rw [List.range_succ, List.foldl_append, ih, List.foldl_cons,
      List.foldl_nil, foldl_w_eq, List.flatMap_append,
      List.flatMap_singleton, applyWrites_append, Nat.succ_mul,
      ← Nat.add_assoc]

/-- The execute loop nest equals the write list applied in order; in
particular the running input pointer offset at iteration
`(r, w, l, k)` is the closed form `tIdx`. -/
theorem iwfac_core_eq_applyWrites (g0 : Nat → α) :
    iwfac_core dft pl R gf f g0 =
      applyWrites f g0 (iwfacWrites dft pl R gf) := by
  unfold iwfac_core
  rw [foldl_r_eq]
  show applyWrites f g0 _ = _
  unfold iwfacWrites
  refine congrArg (applyWrites f g0) ?_
  refine List.flatMap_congr fun r _ => List.flatMap_congr fun w _ =>
    List.flatMap_congr fun l _ => List.flatMap_congr fun k _ => ?_
  have h : 0 + r * (R * (pl.q * pl.p)) + w * (pl.q * pl.p) + l * pl.p + k =
      tIdx pl R r w l k := by
    unfold tIdx; ring
  rw [h]

end CoreStructure

/-! ## Number-theoretic structure of the residues -/

/-- The residue written by `(l, k, s)` divided by `c`:
`u = (k·q − l·p + s·p·q) mod (p·q·d)`. -/
def uVal (pl : IwfacPlan) (l k s : Nat) : Nat :=
  (((k : Int) * pl.q - (l : Int) * pl.p + (s : Int) * pl.p * pl.q) %
    ((pl.p : Int) * pl.q * pl.d)).toNat

theorem remFun_eq_c_mul_uVal (pl : IwfacPlan) (hv : pl.valid)
    (l k s : Nat) : remFun pl l k s = pl.c * uVal pl l k s := by
  obtain ⟨hc, hp, hq, hd, ha, hM, hL, -, -⟩ := hv
  have hL0 : (0 : Int) < (pl.L : Int) := by
    rw [hL]; exact_mod_cast Nat.mul_pos (Nat.mul_pos (Nat.mul_pos hc hp) hq) hd
  have hneg : ((negremN pl l k : Nat) : Int) =
      ((k : Int) * pl.M - (l : Int) * pl.a) % pl.L := by
    unfold negremN positiverem
    exact Int.toNat_of_nonneg (Int.emod_nonneg _ (ne_of_gt hL0))
  have key : ((remFun pl l k s : Nat) : Int) =
      (pl.c : Int) * uVal pl l k s := by
    unfold remFun
    push_cast [Int.natCast_mod]
    rw [hneg, Int.emod_add_emod]
    have e1 : (k : Int) * pl.M - (l : Int) * pl.a + s * pl.p * pl.M =
        (pl.c : Int) * ((k : Int) * pl.q - (l : Int) * pl.p +
          (s : Int) * pl.p * pl.q) := by
      have hM' : ((pl.M : Nat) : Int) = (pl.c : Int) * pl.q := by
        exact_mod_cast congrArg (Nat.cast : Nat → Int) hM
      have ha' : ((pl.a : Nat) : Int) = (pl.c : Int) * pl.p := by
        exact_mod_cast congrArg (Nat.cast : Nat → Int) ha
      rw [hM', ha']; ring
    have e2 : ((pl.L : Nat) : Int) =
        (pl.c : Int) * ((pl.p : Int) * pl.q * pl.d) := by
      have := congrArg (Nat.cast : Nat → Int) hL
      push_cast at this; rw [this]; ring
    rw [e1, e2, Int.mul_emod_mul_of_pos _ _ (by exact_mod_cast hc)]
    unfold uVal
    rw [Int.toNat_of_nonneg]
    apply Int.emod_nonneg
    have : (0 : Int) < (pl.p : Int) * pl.q * pl.d := by
      exact_mod_cast Nat.mul_pos (Nat.mul_pos hp hq) hd
    exact ne_of_gt this
  exact_mod_cast key

theorem uVal_lt (pl : IwfacPlan) (hv : pl.valid) (l k s : Nat) :
    uVal pl l k s < pl.p * pl.q * pl.d := by
  obtain ⟨-, hp, hq, hd, -, -, -, -, -⟩ := hv
  have hN : (0 : Int) < (pl.p : Int) * pl.q * pl.d := by
    exact_mod_cast Nat.mul_pos (Nat.mul_pos hp hq) hd
  have hlt := Int.emod_lt_of_pos
    ((k : Int) * pl.q - (l : Int) * pl.p + (s : Int) * pl.p * pl.q) hN
  have hnn := Int.emod_nonneg
    ((k : Int) * pl.q - (l : Int) * pl.p + (s : Int) * pl.p * pl.q)
    (ne_of_gt hN)
  have hcast : ((pl.p * pl.q * pl.d : Nat) : Int) =
      (pl.p : Int) * pl.q * pl.d := by push_cast; ring
  unfold uVal
  omega

/-- A divisibility-plus-bounds cancellation step: if `n ∣ x' - x`
with `0 ≤ x, x' < n` (as naturals cast to `Int`) then `x = x'`. -/
theorem nat_eq_of_dvd_sub {x x' n : Nat} (hx : x < n) (hx' : x' < n)
    (h : (n : Int) ∣ (x' : Int) - x) : x = x' := by
  rcases h with ⟨e, he⟩
  have hn : (0 : Int) < n := by
    have : 0 < n := Nat.lt_of_le_of_lt (Nat.zero_le x) hx
    exact_mod_cast this
  have h1 : ((x' : Int) - x) < n := by
    have : (x' : Int) < n := by exact_mod_cast hx'
    omega
  have h2 : -(n : Int) < (x' : Int) - x := by
    have : (x : Int) < n := by exact_mod_cast hx
    omega
  have he0 : e = 0 := by
    by_contra h0
    rcases lt_or_gt_of_ne h0 with hlt | hgt
    · have : (n : Int) * e ≤ -n := by
        have : e ≤ -1 := by omega
        nlinarith
      omega
    · have : (n : Int) ≤ n * e := by
        have : 1 ≤ e := by omega
        nlinarith
      omega
  have : (x' : Int) = x := by rw [he0, mul_zero] at he; omega
  exact_mod_cast this.symm

/-- Injectivity of the residue index `u` over `(l, k, s)` in their
ranges: distinct loop triples hit distinct residues. -/
theorem uVal_inj (pl : IwfacPlan) (hv : pl.valid) {l k s l' k' s' : Nat}
    (hl : l < pl.q) (hk : k < pl.p) (hs : s < pl.d)
    (hl' : l' < pl.q) (hk' : k' < pl.p) (hs' : s' < pl.d)
    (h : uVal pl l k s = uVal pl l' k' s') :
    l = l' ∧ k = k' ∧ s = s' := by
  obtain ⟨hc, hp, hq, hd, -, -, -, -, hco⟩ := hv
  have hp0 : (0 : Int) < pl.p := by exact_mod_cast hp
  have hq0 : (0 : Int) < pl.q := by exact_mod_cast hq
  have hd0 : (0 : Int) < pl.d := by exact_mod_cast hd
  have hN : (0 : Int) < (pl.p : Int) * pl.q * pl.d := by positivity
  unfold uVal at h
  set X : Int := (k : Int) * pl.q - (l : Int) * pl.p + (s : Int) * pl.p * pl.q with hX
  set X' : Int := (k' : Int) * pl.q - (l' : Int) * pl.p + (s' : Int) * pl.p * pl.q with hX'
  have hmod : X % ((pl.p : Int) * pl.q * pl.d) =
      X' % ((pl.p : Int) * pl.q * pl.d) := by
    have h1 := Int.emod_nonneg X (ne_of_gt hN)
    have h2 := Int.emod_nonneg X' (ne_of_gt hN)
    omega
  have hdvd : ((pl.p : Int) * pl.q * pl.d) ∣ X' - X :=
    Int.ModEq.dvd hmod
  -- step 1: k = k'
  have hkk : k = k' := by
    have hP : (pl.p : Int) ∣ X' - X :=
      dvd_trans ⟨(pl.q : Int) * pl.d, by ring⟩ hdvd
    have : (pl.p : Int) ∣ (pl.q : Int) * ((k' : Int) - k) := by
      have e : (pl.q : Int) * ((k' : Int) - k) =
          (X' - X) - (pl.p : Int) * (((l : Int) - l') +
            ((s' : Int) - s) * pl.q) := by rw [hX, hX']; ring
      rw [e]
      exact dvd_sub hP (Dvd.intro _ rfl)
    have hmul : (pl.p : Int) ∣ (pl.q : Int) * ((k' : Int) - k) := this
    have : (pl.p : Int) ∣ ((k' : Int) - k) :=
      Int.dvd_of_dvd_mul_right_of_gcd_one hmul (by
        rw [Int.gcd_natCast_natCast]; exact hco)
    exact nat_eq_of_dvd_sub hk hk' this
  -- step 2: l = l'
  subst hkk
  have hPY : ((pl.p : Int) * ((pl.q : Int) * pl.d)) ∣
      (pl.p : Int) * (((l : Int) - l') + ((s' : Int) - s) * pl.q) := by
    have e : X' - X = (pl.p : Int) * (((l : Int) - l') +
        ((s' : Int) - s) * pl.q) := by rw [hX, hX']; ring
    have e2 : (pl.p : Int) * pl.q * pl.d =
        (pl.p : Int) * ((pl.q : Int) * pl.d) := by ring
    rw [← e, ← e2]
    exact hdvd
  have hY : ((pl.q : Int) * pl.d) ∣
      (((l : Int) - l') + ((s' : Int) - s) * pl.q) :=
    (mul_dvd_mul_iff_left (ne_of_gt hp0)).1 hPY
  have hll : l = l' := by
    have hQ : (pl.q : Int) ∣ ((l : Int) - l') := by
      have : (pl.q : Int) ∣ (((l : Int) - l') + ((s' : Int) - s) * pl.q) :=
        dvd_trans ⟨(pl.d : Int), rfl⟩ hY
      have e : (l : Int) - l' = (((l : Int) - l') +
          ((s' : Int) - s) * pl.q) - ((s' : Int) - s) * pl.q := by ring
      rw [e]
      exact dvd_sub this (Dvd.intro_left _ rfl)
    exact (nat_eq_of_dvd_sub hl' hl hQ).symm
  subst hll
  -- step 3: s = s'
  have hQS : ((pl.q : Int) * pl.d) ∣ (pl.q : Int) * ((s' : Int) - s) := by
    have e : (pl.q : Int) * ((s' : Int) - s) =
        (((l : Int) - l) + ((s' : Int) - s) * pl.q) := by ring
    rw [e]; exact hY
  have hS : (pl.d : Int) ∣ ((s' : Int) - s) :=
    (mul_dvd_mul_iff_left (ne_of_gt hq0)).1 hQS
  exact ⟨rfl, rfl, nat_eq_of_dvd_sub hs hs' hS⟩

theorem posIdx_eq (pl : IwfacPlan) (r w l k s : Nat) :
    posIdx pl r w l k s = r + remFun pl l k s + pl.L * w := rfl

theorem remFun_add_c_le (pl : IwfacPlan) (hv : pl.valid) (l k s : Nat) :
    remFun pl l k s + pl.c ≤ pl.L := by
  rw [remFun_eq_c_mul_uVal pl hv]
  have hu := uVal_lt pl hv l k s
  have h1 : pl.c * uVal pl l k s + pl.c = pl.c * (uVal pl l k s + 1) := by
    ring
  have h2 : pl.c * (uVal pl l k s + 1) ≤ pl.c * (pl.p * pl.q * pl.d) :=
    Nat.mul_le_mul_left _ hu
  have h3 : pl.c * (pl.p * pl.q * pl.d) = pl.L := by
    rw [hv.2.2.2.2.2.2.1]; ring
  omega

/-- Safety of the output index: every `r + rem + L·w` formed by the
loops lies below `L·R`. -/
theorem posIdx_lt_LR (pl : IwfacPlan) (hv : pl.valid) {r w : Nat}
    (l k s : Nat) (hr : r < pl.c) (hw : w < R) :
    posIdx pl r w l k s < pl.L * R := by
  rw [posIdx_eq]
  have h1 := remFun_add_c_le pl hv l k s
  have h2 : r + remFun pl l k s < pl.L := by omega
  have h3 : pl.L * (w + 1) ≤ pl.L * R := Nat.mul_le_mul_left _ hw
  have h4 : pl.L * (w + 1) = pl.L * w + pl.L := by ring
  omega

/-- Global injectivity of the output index over the loop ranges: no
two writes of one execute call go to the same output element. -/
theorem posIdx_inj (pl : IwfacPlan) (hv : pl.valid)
    {r w l k s r' w' l' k' s' : Nat}
    (hr : r < pl.c) (hl : l < pl.q) (hk : k < pl.p) (hs : s < pl.d)
    (hr' : r' < pl.c) (hl' : l' < pl.q) (hk' : k' < pl.p) (hs' : s' < pl.d)
    (h : posIdx pl r w l k s = posIdx pl r' w' l' k' s') :
    r = r' ∧ w = w' ∧ l = l' ∧ k = k' ∧ s = s' := by
  have hc := hv.1
  have hL0 : 0 < pl.L := by
    rw [hv.2.2.2.2.2.2.1]
    exact Nat.mul_pos (Nat.mul_pos (Nat.mul_pos hv.1 hv.2.1) hv.2.2.1)
      hv.2.2.2.1
  rw [posIdx_eq, posIdx_eq] at h
  have hx : r + remFun pl l k s < pl.L := by
    have := remFun_add_c_le pl hv l k s; omega
  have hx' : r' + remFun pl l' k' s' < pl.L := by
    have := remFun_add_c_le pl hv l' k' s'; omega
  have hwdiv : ∀ x u : Nat, x < pl.L → (x + pl.L * u) / pl.L = u := by
    intro x u hxL
    rw [Nat.add_mul_div_left _ _ hL0, Nat.div_eq_of_lt hxL, Nat.zero_add]
  have hww : w = w' := by
    have e1 := hwdiv _ w hx
    have e2 := hwdiv _ w' hx'
    rw [← e1, ← e2, h]
  subst hww
  have hxx : r + remFun pl l k s = r' + remFun pl l' k' s' := by omega
  rw [remFun_eq_c_mul_uVal pl hv, remFun_eq_c_mul_uVal pl hv] at hxx
  have hcdiv : ∀ x u : Nat, x < pl.c → (x + pl.c * u) / pl.c = u := by
    intro x u hxc
    rw [Nat.add_mul_div_left _ _ hc, Nat.div_eq_of_lt hxc, Nat.zero_add]
  have huu : uVal pl l k s = uVal pl l' k' s' := by
    have e1 := hcdiv r (uVal pl l k s) hr
    have e2 := hcdiv r' (uVal pl l' k' s') hr'
    rw [← e1, ← e2, hxx]
  have hrr : r = r' := by rw [huu] at hxx; omega
  obtain ⟨h1, h2, h3⟩ := uVal_inj pl hv hl hk hs hl' hk' hs' huu
  exact ⟨hrr, rfl, h1, h2, h3⟩

theorem iwfacWrites_map_fst (dft : Nat → (Nat → ℂ) → Nat → ℂ)
    (pl : IwfacPlan) (R : Nat) (gf : Nat → ℂ) :
    (iwfacWrites dft pl R gf).map Prod.fst =
      (List.range pl.c).flatMap fun r => (List.range R).flatMap fun w =>
      (List.range pl.q).flatMap fun l => (List.range pl.p).flatMap fun k =>
        (List.range pl.d).map fun s => posIdx pl r w l k s := by
  unfold iwfacWrites innerWrites
  simp only [List.map_flatMap, List.map_map]
  rfl

theorem iwfacWrites_keys_nodup (dft : Nat → (Nat → ℂ) → Nat → ℂ)
    (pl : IwfacPlan) (R : Nat) (gf : Nat → ℂ) (hv : pl.valid) :
    ((iwfacWrites dft pl R gf).map Prod.fst).Nodup := by
  rw [iwfacWrites_map_fst]
  refine nodup_flatMap_of_inj (List.nodup_range _) ?_ ?_
  · intro r hr
    rw [List.mem_range] at hr
    refine nodup_flatMap_of_inj (List.nodup_range _) ?_ ?_
    · intro w hw
      refine nodup_flatMap_of_inj (List.nodup_range _) ?_ ?_
      · intro l hl
        rw [List.mem_range] at hl
        refine nodup_flatMap_of_inj (List.nodup_range _) ?_ ?_
        · intro k hk
          rw [List.mem_range] at hk
          refine List.Nodup.map_on ?_ (List.nodup_range _)
          intro s hs s' hs' hss
          rw [List.mem_range] at hs hs'
          exact (posIdx_inj pl hv hr hl hk hs hr hl hk hs' hss).2.2.2.2
        · intro k hk k' hk' x hx hx'
          rw [List.mem_range] at hk hk'
          simp only [List.mem_map, List.mem_range] at hx hx'
          obtain ⟨s, hs, hsx⟩ := hx
          obtain ⟨s', hs', hsx'⟩ := hx'
          exact (posIdx_inj pl hv hr hl hk hs hr hl hk' hs'
            (hsx.trans hsx'.symm)).2.2.2.1
      · intro l hl l' hl' x hx hx'
        rw [List.mem_range] at hl hl'
        simp only [List.mem_flatMap, List.mem_map, List.mem_range] at hx hx'
        obtain ⟨k, hk, s, hs, hsx⟩ := hx
        obtain ⟨k', hk', s', hs', hsx'⟩ := hx'
        exact (posIdx_inj pl hv hr hl hk hs hr hl' hk' hs'
          (hsx.trans hsx'.symm)).2.2.1
    · intro w hw w' hw' x hx hx'
      simp only [List.mem_flatMap, List.mem_map, List.mem_range] at hx hx'
      obtain ⟨l, hl, k, hk, s, hs, hsx⟩ := hx
      obtain ⟨l', hl', k', hk', s', hs', hsx'⟩ := hx'
      exact (posIdx_inj pl hv hr hl hk hs hr hl' hk' hs'
        (hsx.trans hsx'.symm)).2.1
  · intro r hr r' hr' x hx hx'
    rw [List.mem_range] at hr hr'
    simp only [List.mem_flatMap, List.mem_map, List.mem_range] at hx hx'
    obtain ⟨w, hw, l, hl, k, hk, s, hs, hsx⟩ := hx
    obtain ⟨w', hw', l', hl', k', hk', s', hs', hsx'⟩ := hx'
    exact (posIdx_inj pl hv hr hl hk hs hr' hl' hk' hs'
      (hsx.trans hsx'.symm)).1

/-- The value read back from the output buffer at a write position:
the `s`-th transform output of the block whose input pointer offset
is `tIdx r w l k`. -/
theorem iwfac_core_apply {α : Type} (dft : Nat → (Nat → ℂ) → Nat → ℂ)
    (pl : IwfacPlan) (R : Nat) (gf : Nat → ℂ) (f : ℂ → α)
    (hv : pl.valid) {r w l k s : Nat} (hr : r < pl.c) (hw : w < R)
    (hl : l < pl.q) (hk : k < pl.p) (hs : s < pl.d) (g0 : Nat → α) :
    iwfac_core dft pl R gf f g0 (posIdx pl r w l k s) =
      f (dft pl.d (sbufLoad pl R gf (tIdx pl R r w l k)) s) := by
  rw [iwfac_core_eq_applyWrites]
  refine applyWrites_mem ?_ (iwfacWrites_keys_nodup dft pl R gf hv)
  unfold iwfacWrites innerWrites
  simp only [List.mem_flatMap, List.mem_map, List.mem_range]
  exact ⟨r, hr, w, hw, l, hl, k, hk, s, hs, rfl⟩

/-! ## DFT orthogonality and index decoding -/

/-- Orthogonality of the discrete characters: the geometric sum of a
`d`-th root of unity. -/
theorem sum_exp_orth (d : Nat) (hd : 0 < d) (m : Int) :
    ∑ j ∈ Finset.range d, Complex.exp (2 * Real.pi * Complex.I * m * j / d) =
      if (d : Int) ∣ m then (d : ℂ) else 0 := by
  have hd0 : (d : ℂ) ≠ 0 := by exact_mod_cast Nat.pos_iff_ne_zero.1 hd
  have hterm : ∀ j : Nat,
      Complex.exp (2 * Real.pi * Complex.I * m * j / d) =
        Complex.exp (2 * Real.pi * Complex.I * m / d) ^ j := by
    intro j
    rw [← Complex.exp_nat_mul]
    congr 1
    field_simp
    ring
  simp only [hterm]
  by_cases hdvd : (d : Int) ∣ m
  · rcases id hdvd with ⟨e, he⟩
    have hz : Complex.exp (2 * Real.pi * Complex.I * m / d) = 1 := by
      have harg : (2 : ℂ) * Real.pi * Complex.I * m / d =
          e * (2 * Real.pi * Complex.I) := by
        have hm : (m : ℂ) = (d : ℂ) * e := by
          exact_mod_cast congrArg (Int.cast : Int → ℂ) he
        field_simp [hm]
        ring
      rw [harg, Complex.exp_int_mul_two_pi_mul_I]
    simp only [hz, one_pow, Finset.sum_const, Finset.card_range,
      nsmul_eq_mul, mul_one]
    rw [if_pos hdvd]
  · have h2pi : (2 : ℂ) * Real.pi * Complex.I ≠ 0 := by
      simp [Real.pi_ne_zero, Complex.I_ne_zero]
    have hz : Complex.exp (2 * Real.pi * Complex.I * m / d) ≠ 1 := by
      intro h1
      rcases Complex.exp_eq_one_iff.1 h1 with ⟨n, hn⟩
      have h3 : (2 : ℂ) * Real.pi * Complex.I * m =
          n * (2 * Real.pi * Complex.I) * d := by
        have h0 := congrArg (fun z : ℂ => z * d) hn
        simpa [div_mul_cancel₀ _ hd0] using h0
      have h4 : (2 : ℂ) * Real.pi * Complex.I * m =
          (2 : ℂ) * Real.pi * Complex.I * (n * d) := by
        rw [h3]; ring
      have h5 : (m : ℂ) = ((n * d : Int) : ℂ) := by
        have h6 := mul_left_cancel₀ h2pi h4
        push_cast
        exact h6
      have h6 : m = n * d := by exact_mod_cast h5
      exact hdvd ⟨n, by rw [h6]; ring⟩
    rw [geom_sum_eq hz]
    have hpow : Complex.exp (2 * Real.pi * Complex.I * m / d) ^ d = 1 := by
      rw [← Complex.exp_nat_mul]
      have harg : (d : ℂ) * (2 * Real.pi * Complex.I * m / d) =
          m * (2 * Real.pi * Complex.I) := by
        field_simp
        ring
      rw [harg, Complex.exp_int_mul_two_pi_mul_I]
    rw [hpow]
    simp [if_neg hdvd]

theorem tIdx_lt (pl : IwfacPlan) (R : Nat) {r w l k : Nat}
    (hr : r < pl.c) (hw : w < R) (hl : l < pl.q) (hk : k < pl.p) :
    tIdx pl R r w l k < pl.ld3 R := by
  have h1 : r * R + w + 1 ≤ pl.c * R := by
    have e1 : r * R + w + 1 ≤ (r + 1) * R := by
      have : (r + 1) * R = r * R + R := by ring
      omega
    exact e1.trans (Nat.mul_le_mul_right R hr)
  have h2 : (r * R + w) * pl.q + l + 1 ≤ pl.c * R * pl.q := by
    have e1 : (r * R + w) * pl.q + l + 1 ≤ (r * R + w + 1) * pl.q := by
      have : (r * R + w + 1) * pl.q = (r * R + w) * pl.q + pl.q := by ring
      omega
    exact e1.trans (Nat.mul_le_mul_right pl.q h1)
  have h3 : ((r * R + w) * pl.q + l) * pl.p + k + 1 ≤
      pl.c * R * pl.q * pl.p := by
    have e1 : ((r * R + w) * pl.q + l) * pl.p + k + 1 ≤
        ((r * R + w) * pl.q + l + 1) * pl.p := by
      have : ((r * R + w) * pl.q + l + 1) * pl.p =
          ((r * R + w) * pl.q + l) * pl.p + pl.p := by ring
      omega
    exact e1.trans (Nat.mul_le_mul_right pl.p h2)
  have h4 : pl.c * R * pl.q * pl.p = pl.c * pl.p * pl.q * R := by ring
  unfold tIdx IwfacPlan.ld3
  omega

/-- The output index with the remainder written as a single signed
modulus, as in the `wfac` formula of spec section 4.3. -/
theorem posIdx_int (pl : IwfacPlan) (hL : 0 < pl.L) (r w l k j : Nat) :
    posIdx pl r w l k j = r +
      (((k : Int) * pl.M - (l : Int) * pl.a + (j : Int) * pl.p * pl.M) %
        (pl.L : Int)).toNat + pl.L * w := by
  have hL0 : (0 : Int) < (pl.L : Int) := by exact_mod_cast hL
  have hneg : ((negremN pl l k : Nat) : Int) =
      ((k : Int) * pl.M - (l : Int) * pl.a) % pl.L := by
    unfold negremN positiverem
    exact Int.toNat_of_nonneg (Int.emod_nonneg _ (ne_of_gt hL0))
  have hmid : ((negremN pl l k + j * pl.p * pl.M) % pl.L : Nat) =
      (((k : Int) * pl.M - (l : Int) * pl.a + (j : Int) * pl.p * pl.M) %
        (pl.L : Int)).toNat := by
    have h1 : (((negremN pl l k + j * pl.p * pl.M) % pl.L : Nat) : Int) =
        ((k : Int) * pl.M - (l : Int) * pl.a + (j : Int) * pl.p * pl.M) %
          (pl.L : Int) := by
      push_cast [Int.natCast_mod]
      rw [hneg, Int.emod_add_emod]
    have h2 := Int.emod_nonneg
      ((k : Int) * pl.M - (l : Int) * pl.a + (j : Int) * pl.p * pl.M)
      (ne_of_gt hL0)
    omega
  unfold posIdx
  omega

theorem ld3_pos (pl : IwfacPlan) {R : Nat} (hv : pl.valid) (hR : 0 < R) :
    0 < pl.ld3 R :=
  Nat.mul_pos (Nat.mul_pos (Nat.mul_pos hv.1 hv.2.1) hv.2.2.1) hR

theorem L_pos (pl : IwfacPlan) (hv : pl.valid) : 0 < pl.L := by
  rw [hv.2.2.2.2.2.2.1]
  exact Nat.mul_pos (Nat.mul_pos (Nat.mul_pos hv.1 hv.2.1) hv.2.2.1)
    hv.2.2.2.1

/-- Evaluation of the modelled `wfac` at the linear index
`tIdx(r,w,l,k) + s·ld3`: the decode recovers the coordinates. -/
theorem wfacM_apply (pl : IwfacPlan) (R : Nat) (g : Nat → ℂ)
    (hv : pl.valid) (hR : 0 < R) {r w l k s : Nat} (hr : r < pl.c)
    (hw : w < R) (hl : l < pl.q) (hk : k < pl.p) :
    wfacM pl R g (tIdx pl R r w l k + s * pl.ld3 R) =
      ((Real.sqrt pl.M / pl.d : ℝ) : ℂ) *
        ∑ j ∈ Finset.range pl.d, g (posIdx pl r w l k j) *
          Complex.exp (-(2 * Real.pi * Complex.I * s * j / pl.d)) := by
  have hp := hv.2.1
  have hq := hv.2.2.1
  have hL := L_pos pl hv
  have hld3 := ld3_pos pl hv hR
  have hmodn : (tIdx pl R r w l k + s * pl.ld3 R) % pl.ld3 R =
      tIdx pl R r w l k := by
    rw [Nat.add_mul_mod_self_right,
      Nat.mod_eq_of_lt (tIdx_lt pl R hr hw hl hk)]
  have hdivn : (tIdx pl R r w l k + s * pl.ld3 R) / pl.ld3 R = s := by
    rw [Nat.add_mul_div_right _ _ hld3,
      Nat.div_eq_of_lt (tIdx_lt pl R hr hw hl hk), Nat.zero_add]
  have htp : tIdx pl R r w l k = pl.p * ((r * R + w) * pl.q + l) + k := by
    unfold tIdx; ring
  have hkdec : tIdx pl R r w l k % pl.p = k := by
    rw [htp, Nat.mul_add_mod, Nat.mod_eq_of_lt hk]
  have hdiv1 : tIdx pl R r w l k / pl.p = (r * R + w) * pl.q + l := by
    rw [htp, Nat.mul_add_div hp, Nat.div_eq_of_lt hk, Nat.add_zero]
  have hldec : tIdx pl R r w l k / pl.p % pl.q = l := by
    rw [hdiv1, show (r * R + w) * pl.q + l = pl.q * (r * R + w) + l from
      by ring, Nat.mul_add_mod, Nat.mod_eq_of_lt hl]
  have hdiv2 : tIdx pl R r w l k / (pl.q * pl.p) = r * R + w := by
    rw [show pl.q * pl.p = pl.p * pl.q from Nat.mul_comm _ _,
      ← Nat.div_div_eq_div_mul, hdiv1,
      show (r * R + w) * pl.q + l = pl.q * (r * R + w) + l from by ring,
      Nat.mul_add_div hq, Nat.div_eq_of_lt hl, Nat.add_zero]
  have hwdec : tIdx pl R r w l k / (pl.q * pl.p) % R = w := by
    rw [hdiv2, show r * R + w = R * r + w from by ring, Nat.mul_add_mod,
      Nat.mod_eq_of_lt hw]
  have hrdec : tIdx pl R r w l k / (R * pl.q * pl.p) = r := by
    rw [show R * pl.q * pl.p = pl.q * pl.p * R from by ring,
      ← Nat.div_div_eq_div_mul, hdiv2,
      show r * R + w = R * r + w from by ring, Nat.mul_add_div hR,
      Nat.div_eq_of_lt hw, Nat.add_zero]
  simp only [wfacM]
  rw [hmodn, hdivn, hkdec, hldec, hwdec, hrdec]
  congr 1
  refine Finset.sum_congr rfl fun j _ => ?_
  rw [← posIdx_int pl hL]

theorem sqrtM_ne_zero (pl : IwfacPlan) (hv : pl.valid) :
    Real.sqrt pl.M ≠ 0 := by
  have hM : 0 < pl.M := by
    rw [hv.2.2.2.2.2.1]; exact Nat.mul_pos hv.1 hv.2.2.1
  have : (0 : ℝ) < pl.M := by exact_mod_cast hM
  exact ne_of_gt (Real.sqrt_pos.2 this)

theorem d_ne_zero_c (pl : IwfacPlan) (hv : pl.valid) : (pl.d : ℂ) ≠ 0 := by
  exact_mod_cast Nat.pos_iff_ne_zero.1 hv.2.2.2.1

/-- Composite of the two scaling constants with the factor `d`
contributed by the unnormalized forward/backward DFT pair:
`(1/(sqrt M·d)) · (sqrt M/d) · d = 1/d`, not `1`. -/
theorem scaling_composite (pl : IwfacPlan) (hv : pl.valid) :
    (pl.scaling : ℂ) * ((Real.sqrt pl.M / pl.d : ℝ) : ℂ) * (pl.d : ℂ) =
      1 / (pl.d : ℂ) := by
  have hs := sqrtM_ne_zero pl hv
  have hd : (pl.d : ℝ) ≠ 0 := by
    exact_mod_cast Nat.pos_iff_ne_zero.1 hv.2.2.2.1
  have hre : pl.scaling * (Real.sqrt pl.M / pl.d) * pl.d = 1 / pl.d := by
    unfold IwfacPlan.scaling
    field_simp
  calc (pl.scaling : ℂ) * ((Real.sqrt pl.M / pl.d : ℝ) : ℂ) * (pl.d : ℂ)
      = ((pl.scaling * (Real.sqrt pl.M / pl.d) * pl.d : ℝ) : ℂ) := by
        push_cast; ring
    _ = ((1 / pl.d : ℝ) : ℂ) := by rw [hre]
    _ = 1 / (pl.d : ℂ) := by push_cast; ring

/-- Forward round trip, pointwise at a write position: applying the
source `iwfac` loop to the spec-modelled `wfac` factorization scales
the window by `1/d`. -/
theorem roundtrip_fwd_pointwise (pl : IwfacPlan) (R : Nat) (g g0 : Nat → ℂ)
    (hv : pl.valid) (hR : 0 < R) {r w l k s : Nat} (hr : r < pl.c)
    (hw : w < R) (hl : l < pl.q) (hk : k < pl.p) (hs : s < pl.d) :
    iwfac_core dftBwd pl R (wfacM pl R g) id g0 (posIdx pl r w l k s) =
      g (posIdx pl r w l k s) / (pl.d : ℂ) := by
  have hd0 : (pl.d : ℂ) ≠ 0 := d_ne_zero_c pl hv
  rw [iwfac_core_apply dftBwd pl R (wfacM pl R g) id hv hr hw hl hk hs g0]
  simp only [id_eq, dftBwd, sbufLoad]
  have hstep : ∀ x ∈ Finset.range pl.d,
      (pl.scaling : ℂ) * wfacM pl R g (tIdx pl R r w l k + x * pl.ld3 R) *
        Complex.exp (2 * Real.pi * Complex.I * x * s / pl.d) =
      (pl.scaling : ℂ) * ((Real.sqrt pl.M / pl.d : ℝ) : ℂ) *
        ∑ j ∈ Finset.range pl.d, g (posIdx pl r w l k j) *
          Complex.exp (2 * Real.pi * Complex.I * ((s : Int) - j) * x / pl.d) := by
    intro x _
    rw [wfacM_apply pl R g hv hR hr hw hl hk]
    rw [Finset.mul_sum, Finset.mul_sum, Finset.sum_mul, Finset.mul_sum]
    refine Finset.sum_congr rfl fun j _ => ?_
    have hexp : Complex.exp (-(2 * Real.pi * Complex.I * x * j / pl.d)) *
        Complex.exp (2 * Real.pi * Complex.I * x * s / pl.d) =
        Complex.exp (2 * Real.pi * Complex.I * ((s : Int) - j) * x / pl.d) := by
      rw [← Complex.exp_add]
      congr 1
      push_cast
      field_simp
      ring
    calc (pl.scaling : ℂ) * (((Real.sqrt pl.M / pl.d : ℝ) : ℂ) *
            (g (posIdx pl r w l k j) *
              Complex.exp (-(2 * Real.pi * Complex.I * x * j / pl.d)))) *
          Complex.exp (2 * Real.pi * Complex.I * x * s / pl.d)
        = (pl.scaling : ℂ) * ((Real.sqrt pl.M / pl.d : ℝ) : ℂ) *
            (g (posIdx pl r w l k j) *
              (Complex.exp (-(2 * Real.pi * Complex.I * x * j / pl.d)) *
                Complex.exp (2 * Real.pi * Complex.I * x * s / pl.d))) := by
          ring
      _ = (pl.scaling : ℂ) * ((Real.sqrt pl.M / pl.d : ℝ) : ℂ) *
            (g (posIdx pl r w l k j) *
              Complex.exp (2 * Real.pi * Complex.I * ((s : Int) - j) * x / pl.d)) := by
          rw [hexp]
  rw [Finset.sum_congr rfl hstep]
  rw [← Finset.mul_sum]
  rw [Finset.sum_comm]
  have hinner : ∀ j ∈ Finset.range pl.d,
      (∑ x ∈ Finset.range pl.d, g (posIdx pl r w l k j) *
        Complex.exp (2 * Real.pi * Complex.I * ((s : Int) - j) * x / pl.d)) =
      g (posIdx pl r w l k j) *
        (if (pl.d : Int) ∣ ((s : Int) - j) then (pl.d : ℂ) else 0) := by
    intro j _
    have horth := sum_exp_orth pl.d hv.2.2.2.1 ((s : Int) - j)
    push_cast at horth ⊢
    rw [← Finset.mul_sum, horth]
  rw [Finset.sum_congr rfl hinner]
  rw [Finset.sum_eq_single_of_mem s (Finset.mem_range.2 hs)]
  · have hdvd0 : (pl.d : Int) ∣ ((s : Int) - s) := by simp
    rw [if_pos hdvd0]
    calc (pl.scaling : ℂ) * ((Real.sqrt pl.M / pl.d : ℝ) : ℂ) *
          (g (posIdx pl r w l k s) * (pl.d : ℂ))
        = (pl.scaling : ℂ) * ((Real.sqrt pl.M / pl.d : ℝ) : ℂ) *
            (pl.d : ℂ) * g (posIdx pl r w l k s) := by ring
      _ = 1 / (pl.d : ℂ) * g (posIdx pl r w l k s) := by
          rw [scaling_composite pl hv]
      _ = g (posIdx pl r w l k s) / (pl.d : ℂ) := by ring
  · intro j hj hne
    rw [if_neg, mul_zero]
    intro hdvd
    exact hne (nat_eq_of_dvd_sub (Finset.mem_range.1 hj) hs hdvd)

/-- Backward round trip, pointwise at a factor index: applying the
spec-modelled `wfac` to the output of the source `iwfac` loop scales
the factor tensor by `1/d`. -/
theorem roundtrip_bwd_pointwise (pl : IwfacPlan) (R : Nat)
    (gf g0 : Nat → ℂ) (hv : pl.valid) (hR : 0 < R) {r w l k s : Nat}
    (hr : r < pl.c) (hw : w < R) (hl : l < pl.q) (hk : k < pl.p)
    (hs : s < pl.d) :
    wfacM pl R (iwfac_core dftBwd pl R gf id g0)
        (tIdx pl R r w l k + s * pl.ld3 R) =
      gf (tIdx pl R r w l k + s * pl.ld3 R) / (pl.d : ℂ) := by
  rw [wfacM_apply pl R _ hv hR hr hw hl hk]
  have hstep : ∀ j ∈ Finset.range pl.d,
      iwfac_core dftBwd pl R gf id g0 (posIdx pl r w l k j) *
        Complex.exp (-(2 * Real.pi * Complex.I * s * j / pl.d)) =
      ∑ x ∈ Finset.range pl.d, (pl.scaling : ℂ) *
        gf (tIdx pl R r w l k + x * pl.ld3 R) *
        Complex.exp (2 * Real.pi * Complex.I * ((x : Int) - s) * j / pl.d) := by
    intro j hj
    rw [iwfac_core_apply dftBwd pl R gf id hv hr hw hl hk
      (Finset.mem_range.1 hj) g0]
    simp only [id_eq, dftBwd, sbufLoad]
    rw [Finset.sum_mul]
    refine Finset.sum_congr rfl fun x _ => ?_
    have hexp : Complex.exp (2 * Real.pi * Complex.I * x * j / pl.d) *
        Complex.exp (-(2 * Real.pi * Complex.I * s * j / pl.d)) =
        Complex.exp (2 * Real.pi * Complex.I * ((x : Int) - s) * j / pl.d) := by
      rw [← Complex.exp_add]
      congr 1
      push_cast
      field_simp
      ring
    calc (pl.scaling : ℂ) * gf (tIdx pl R r w l k + x * pl.ld3 R) *
          Complex.exp (2 * Real.pi * Complex.I * x * j / pl.d) *
          Complex.exp (-(2 * Real.pi * Complex.I * s * j / pl.d))
        = (pl.scaling : ℂ) * gf (tIdx pl R r w l k + x * pl.ld3 R) *
            (Complex.exp (2 * Real.pi * Complex.I * x * j / pl.d) *
              Complex.exp (-(2 * Real.pi * Complex.I * s * j / pl.d))) := by
          ring
      _ = (pl.scaling : ℂ) * gf (tIdx pl R r w l k + x * pl.ld3 R) *
            Complex.exp (2 * Real.pi * Complex.I * ((x : Int) - s) * j / pl.d) := by
          rw [hexp]
  rw [Finset.sum_congr rfl hstep]
  rw [Finset.sum_comm]
  have hinner : ∀ x ∈ Finset.range pl.d,
      (∑ j ∈ Finset.range pl.d, (pl.scaling : ℂ) *
        gf (tIdx pl R r w l k + x * pl.ld3 R) *
        Complex.exp (2 * Real.pi * Complex.I * ((x : Int) - s) * j / pl.d)) =
      (pl.scaling : ℂ) * gf (tIdx pl R r w l k + x * pl.ld3 R) *
        (if (pl.d : Int) ∣ ((x : Int) - s) then (pl.d : ℂ) else 0) := by
    intro x _
    have horth := sum_exp_orth pl.d hv.2.2.2.1 ((x : Int) - s)
    push_cast at horth ⊢
    rw [← Finset.mul_sum, horth]
  rw [Finset.sum_congr rfl hinner]
  rw [Finset.sum_eq_single_of_mem s (Finset.mem_range.2 hs)]
  · have hdvd0 : (pl.d : Int) ∣ ((s : Int) - s) := by simp
    rw [if_pos hdvd0]
    calc ((Real.sqrt pl.M / pl.d : ℝ) : ℂ) *
          ((pl.scaling : ℂ) * gf (tIdx pl R r w l k + s * pl.ld3 R) *
            (pl.d : ℂ))
        = (pl.scaling : ℂ) * ((Real.sqrt pl.M / pl.d : ℝ) : ℂ) *
            (pl.d : ℂ) * gf (tIdx pl R r w l k + s * pl.ld3 R) := by ring
      _ = 1 / (pl.d : ℂ) * gf (tIdx pl R r w l k + s * pl.ld3 R) := by
          rw [scaling_composite pl hv]
      _ = gf (tIdx pl R r w l k + s * pl.ld3 R) / (pl.d : ℂ) := by ring
  · intro x hx hne
    rw [if_neg, mul_zero]
    intro hdvd
    exact hne (nat_eq_of_dvd_sub hs (Finset.mem_range.1 hx) hdvd).symm

/-- Every output position below `L·R` is hit by exactly one write:
existence half, by counting. -/
theorem exists_posIdx_decode (pl : IwfacPlan) (R : Nat) (hv : pl.valid)
    {n : Nat} (hn : n < pl.L * R) :
    ∃ r w l k s, r < pl.c ∧ w < R ∧ l < pl.q ∧ k < pl.p ∧ s < pl.d ∧
      posIdx pl r w l k s = n := by
  classical
  set T : Finset (Nat × Nat × Nat × Nat × Nat) :=
    Finset.range pl.c ×ˢ Finset.range R ×ˢ Finset.range pl.q ×ˢ
      Finset.range pl.p ×ˢ Finset.range pl.d with hT
  set φ : Nat × Nat × Nat × Nat × Nat → Nat :=
    fun t => posIdx pl t.1 t.2.1 t.2.2.1 t.2.2.2.1 t.2.2.2.2 with hφ
  have hmemT : ∀ t : Nat × Nat × Nat × Nat × Nat, t ∈ T ↔
      t.1 < pl.c ∧ t.2.1 < R ∧ t.2.2.1 < pl.q ∧ t.2.2.2.1 < pl.p ∧
        t.2.2.2.2 < pl.d := by
    intro t
    simp [hT, Finset.mem_product, Finset.mem_range]
  have himg : T.image φ ⊆ Finset.range (pl.L * R) := by
    intro x hx
    rcases Finset.mem_image.1 hx with ⟨t, ht, hxt⟩
    rcases (hmemT t).1 ht with ⟨h1, h2, h3, h4, h5⟩
    rw [Finset.mem_range, ← hxt]
    exact posIdx_lt_LR pl hv _ _ _ h1 h2
  have hinj : Set.InjOn φ T := by
    intro t1 ht1 t2 ht2 heq
    rcases (hmemT t1).1 (by exact_mod_cast ht1) with ⟨a1, b1, c1, d1, e1⟩
    rcases (hmemT t2).1 (by exact_mod_cast ht2) with ⟨a2, b2, c2, d2, e2⟩
    obtain ⟨h1, h2, h3, h4, h5⟩ :=
      posIdx_inj pl hv a1 c1 d1 e1 a2 c2 d2 e2 heq
    obtain ⟨x1, y1, z1, u1, v1⟩ := t1
    obtain ⟨x2, y2, z2, u2, v2⟩ := t2
    simp only at h1 h2 h3 h4 h5
    simp [h1, h2, h3, h4, h5]
  have hcardT : T.card = pl.L * R := by
    rw [hT]
    simp only [Finset.card_product, Finset.card_range]
    rw [hv.2.2.2.2.2.2.1]
    ring
  have hcard : (T.image φ).card = pl.L * R := by
    rw [Finset.card_image_of_injOn hinj, hcardT]
  have heq : T.image φ = Finset.range (pl.L * R) := by
    apply Finset.eq_of_subset_of_card_le himg
    rw [hcard, Finset.card_range]
  have hnmem : n ∈ T.image φ := by
    rw [heq, Finset.mem_range]; exact hn
  rcases Finset.mem_image.1 hnmem with ⟨t, ht, hxt⟩
  rcases (hmemT t).1 ht with ⟨h1, h2, h3, h4, h5⟩
  exact ⟨t.1, t.2.1, t.2.2.1, t.2.2.2.1, t.2.2.2.2, h1, h2, h3, h4, h5, hxt⟩

/-- Every factor-buffer index below `L·R` decomposes as
`tIdx(r,w,l,k) + s·ld3` with the coordinates in range. -/
theorem exists_tIdx_decode (pl : IwfacPlan) (R : Nat) (hv : pl.valid)
    (hR : 0 < R) {n : Nat} (hn : n < pl.L * R) :
    ∃ r w l k s, r < pl.c ∧ w < R ∧ l < pl.q ∧ k < pl.p ∧ s < pl.d ∧
      n = tIdx pl R r w l k + s * pl.ld3 R := by
  have hp := hv.2.1
  have hq := hv.2.2.1
  have hld3 := ld3_pos pl hv hR
  have hLR : pl.L * R = pl.d * pl.ld3 R := by
    unfold IwfacPlan.ld3
    rw [hv.2.2.2.2.2.2.1]
    ring
  set t := n % pl.ld3 R with ht
  set s := n / pl.ld3 R with hs
  set k := t % pl.p with hk
  set u1 := t / pl.p with hu1
  set l := u1 % pl.q with hl
  set u2 := u1 / pl.q with hu2
  set w := u2 % R with hw
  set r := u2 / R with hr
  have hsd : s < pl.d := by
    rw [hs, Nat.div_lt_iff_lt_mul hld3]
    have hcomm : pl.ld3 R * pl.d = pl.d * pl.ld3 R := Nat.mul_comm _ _
    omega
  have htl : t < pl.ld3 R := Nat.mod_lt _ hld3
  have hkp : k < pl.p := Nat.mod_lt _ hp
  have hlq : l < pl.q := Nat.mod_lt _ hq
  have hwR : w < R := Nat.mod_lt _ hR
  have hu2lt : u2 < pl.c * R := by
    rw [hu2, hu1, Nat.div_div_eq_div_mul]
    rw [Nat.div_lt_iff_lt_mul (Nat.mul_pos hp hq)]
    have e : pl.c * R * (pl.p * pl.q) = pl.c * pl.p * pl.q * R := by ring
    rw [e]
    exact htl
  have hrc : r < pl.c := by
    rw [hr, Nat.div_lt_iff_lt_mul hR]
    exact hu2lt
  have e2 : r * R + w = u2 := by
    rw [hr, hw, Nat.mul_comm]
    exact Nat.div_add_mod u2 R
  have e1 : u2 * pl.q + l = u1 := by
    rw [hu2, hl, Nat.mul_comm]
    exact Nat.div_add_mod u1 pl.q
  have e0 : u1 * pl.p + k = t := by
    rw [hu1, hk, Nat.mul_comm]
    exact Nat.div_add_mod t pl.p
  refine ⟨r, w, l, k, s, hrc, hwR, hlq, hkp, hsd, ?_⟩
  unfold tIdx
  rw [e2, e1, e0]
  rw [Nat.mul_comm s (pl.ld3 R), Nat.add_comm]
  exact (Nat.div_add_mod n (pl.ld3 R)).symm

/-! ## Characterization of `iwfac_init` -/

theorem iwfac_init_nonpos (L a M : Int) (h : a ≤ 0 ∨ M ≤ 0) :
    iwfac_init L a M = .error NotPositiveArg := by
  unfold iwfac_init
  split_ifs with h1 h2 h3
  all_goals first
    | rfl
    | (exfalso; omega)

theorem iwfac_init_badL (L a M : Int) (ha : 0 < a) (hM : 0 < M)
    (hL : ¬(L > 0 ∧ L % Int.lcm a M = 0)) :
    iwfac_init L a M = .error BadArgument := by
  unfold iwfac_init
  split_ifs with h1
  all_goals first
    | rfl
    | (exfalso; omega)

theorem iwfac_init_no_notaframe (L a M : Int) :
    iwfac_init L a M ≠ .error NotAFrame := by
  intro h
  unfold iwfac_init at h
  split_ifs at h <;>
    first
    | exact Except.noConfusion h
    | (injection h with he; exact LtfatStatus.noConfusion he)

/-- Full characterization of a successful `iwfac_init`: the argument
checks passed, and the derived plan fields are exactly the spec
formulae `c = gcd(a,M)`, `p = a/c`, `q = M/c`, `b = L/M`, `d = b/p =
L/(a·q)`, all positive (packaged in `pl.valid`). -/
theorem iwfac_init_ok (L a M : Int) (pl : IwfacPlan)
    (h : iwfac_init L a M = .ok pl) :
    0 < a ∧ 0 < M ∧ 0 < L ∧ L % Int.lcm a M = 0 ∧ pl.valid ∧
    pl.a = a.toNat ∧ pl.M = M.toNat ∧ pl.L = L.toNat ∧
    pl.c = Nat.gcd a.toNat M.toNat ∧ pl.p = a.toNat / pl.c ∧
    pl.q = M.toNat / pl.c ∧ pl.b = L.toNat / M.toNat ∧
    pl.d = pl.b / pl.p ∧ pl.d = L.toNat / (a.toNat * pl.q) := by
  unfold iwfac_init at h
  split_ifs at h with h1 h2 h3
  obtain ⟨hL0, hLmod⟩ := h3
  rw [Except.ok.injEq] at h
  subst h
  set A := a.toNat with hA
  set Mn := M.toNat with hMn
  set Ln := L.toNat with hLn
  have haA : (A : Int) = a := Int.toNat_of_nonneg (le_of_lt h1)
  have hMM : (Mn : Int) = M := Int.toNat_of_nonneg (le_of_lt h2)
  have hLL : (Ln : Int) = L := Int.toNat_of_nonneg (le_of_lt hL0)
  have hA0 : 0 < A := by omega
  have hM0 : 0 < Mn := by omega
  have hL0' : 0 < Ln := by omega
  set G := Nat.gcd A Mn with hG
  have hG0 : 0 < G := Nat.gcd_pos_of_pos_left Mn hA0
  have hgcd : Int.gcd a M = G := by
    rw [← haA, ← hMM, Int.gcd_natCast_natCast]
  have hlcm : Int.lcm a M = Nat.lcm A Mn := by
    rw [← haA, ← hMM]
    rfl
  set p' := A / G with hp'
  set q' := Mn / G with hq'
  have hAeq : G * p' = A := Nat.mul_div_cancel' (Nat.gcd_dvd_left A Mn)
  have hMeq : G * q' = Mn := Nat.mul_div_cancel' (Nat.gcd_dvd_right A Mn)
  have hp0 : 0 < p' := by
    rcases Nat.eq_zero_or_pos p' with h0 | h0
    · rw [h0, Nat.mul_zero] at hAeq; omega
    · exact h0
  have hq0 : 0 < q' := by
    rcases Nat.eq_zero_or_pos q' with h0 | h0
    · rw [h0, Nat.mul_zero] at hMeq; omega
    · exact h0
  have hcop : Nat.Coprime p' q' := Nat.coprime_div_gcd_div_gcd hG0
  have hlcmdvd : Nat.lcm A Mn ∣ Ln := by
    have hdvdZ : ((Nat.lcm A Mn : Nat) : Int) ∣ L := by
      rw [← hlcm]
      exact Int.dvd_of_emod_eq_zero hLmod
    rw [← hLL] at hdvdZ
    exact_mod_cast hdvdZ
  set eK := Ln / Nat.lcm A Mn with heK
  have hLeq : Nat.lcm A Mn * eK = Ln := Nat.mul_div_cancel' hlcmdvd
  have hlcm0 : 0 < Nat.lcm A Mn := Nat.pos_of_dvd_of_pos hlcmdvd hL0'
  have he0 : 0 < eK := by
    rcases Nat.eq_zero_or_pos eK with h0 | h0
    · rw [h0, Nat.mul_zero] at hLeq; omega
    · exact h0
  have hlcmGpq : Nat.lcm A Mn = G * p' * q' := by
    have hmul := Nat.gcd_mul_lcm A Mn
    have : G * (G * p' * q') = G * Nat.lcm A Mn := by
      calc G * (G * p' * q') = (G * p') * (G * q') := by ring
        _ = A * Mn := by rw [hAeq, hMeq]
        _ = G * Nat.lcm A Mn := hmul.symm
    exact (Nat.eq_of_mul_eq_mul_left hG0 this).symm
  have hLfull : Ln = G * p' * q' * eK := by rw [← hLeq, hlcmGpq]
  -- the record fields in terms of the natural-number data
  have hcF : (Int.gcd a M : Int).toNat = G := by
    rw [hgcd, Int.toNat_natCast]
  have hbF : (L / M).toNat = Ln / Mn := by
    rw [← hLL, ← hMM, ← Int.natCast_div, Int.toNat_natCast]
  have hpF : (a / (Int.gcd a M : Int)).toNat = p' := by
    rw [hgcd, ← haA, ← Int.natCast_div, Int.toNat_natCast, hp']
  have hqF : (M / (Int.gcd a M : Int)).toNat = q' := by
    rw [hgcd, ← hMM, ← Int.natCast_div, Int.toNat_natCast, hq']
  have hdF : ((L / M) / (a / (Int.gcd a M : Int))).toNat = (Ln / Mn) / p' := by
    rw [hgcd, ← hLL, ← hMM, ← haA, ← Int.natCast_div, ← Int.natCast_div,
      ← Int.natCast_div, Int.toNat_natCast, hp']
  have hbval : Ln / Mn = p' * eK := by
    rw [hLfull, ← hMeq]
    have e : G * p' * q' * eK = (G * q') * (p' * eK) := by ring
    rw [e, Nat.mul_div_cancel_left _ (by omega : 0 < G * q')]
  have hdval : (Ln / Mn) / p' = eK := by
    rw [hbval, Nat.mul_div_cancel_left _ hp0]
  refine ⟨h1, h2, hL0, hLmod, ?_, ?_, ?_, ?_, ?_, ?_, ?_, ?_, ?_, ?_⟩
  · -- validity
    refine ⟨?_, ?_, ?_, ?_, ?_, ?_, ?_, ?_, ?_⟩
    · simpa [hcF] using hG0
    · simpa [hpF] using hp0
    · simpa [hqF] using hq0
    · simpa [hdF, hdval] using he0
    · show A = (Int.gcd a M : Int).toNat * (a / (Int.gcd a M : Int)).toNat
      rw [hcF, hpF]; omega
    · show Mn = (Int.gcd a M : Int).toNat * (M / (Int.gcd a M : Int)).toNat
      rw [hcF, hqF]; omega
    · show Ln = (Int.gcd a M : Int).toNat * (a / (Int.gcd a M : Int)).toNat *
        (M / (Int.gcd a M : Int)).toNat *
        ((L / M) / (a / (Int.gcd a M : Int))).toNat
      rw [hcF, hpF, hqF, hdF, hdval, hLfull]
    · show (L / M).toNat = (a / (Int.gcd a M : Int)).toNat *
        ((L / M) / (a / (Int.gcd a M : Int))).toNat
      rw [hbF, hpF, hdF, hdval, hbval]
    · show Nat.Coprime (a / (Int.gcd a M : Int)).toNat
        (M / (Int.gcd a M : Int)).toNat
      rw [hpF, hqF]; exact hcop
  · rfl
  · rfl
  · rfl
  · show (Int.gcd a M : Int).toNat = Nat.gcd A Mn
    rw [hcF]
  · show (a / (Int.gcd a M : Int)).toNat = A / (Int.gcd a M : Int).toNat
    rw [hcF, hpF]
  · show (M / (Int.gcd a M : Int)).toNat = Mn / (Int.gcd a M : Int).toNat
    rw [hcF, hqF]
  · exact hbF
  · show ((L / M) / (a / (Int.gcd a M : Int))).toNat =
      (L / M).toNat / (a / (Int.gcd a M : Int)).toNat
    rw [hbF, hpF, hdF]
  · show ((L / M) / (a / (Int.gcd a M : Int))).toNat =
      Ln / (A * (M / (Int.gcd a M : Int)).toNat)
    rw [hdF, hqF, hdval, hLfull, ← hAeq,
      Nat.mul_div_cancel_left _ (by positivity : 0 < G * p' * q')]

/-! ## Claim theorems -/

/-- C1: for every plan successfully initialized from a valid lattice
`(L, a, M)` and every `R > 0`, `iwfac_execute` returns `Success` and,
for each `(r, w, l, k)` with `r < c`, `w < R`, `l < q`, `k < p`, it
loads `d` complex factor samples from `gf` at complex stride
`ld3 = c·p·q·R` starting at the offset `tIdx = ((r·R + w)·q + l)·p + k`
(the pointer that advances by one complex element per `(l, k)` pair),
scales them by the plan's scaling constant (`sbufLoad`), applies the
in-place length-`d` backward transform `dft`, computes
`negrem = (k·M − l·a) mod L` with non-negative modulus, and writes
output `s` to `g[r + ((negrem + s·p·M) mod L) + L·w]` (`posIdx`) —
the full complex value in the complex regime, only the real part in
the real regime. -/
theorem c1_execute_strides_and_writes (dft : Nat → (Nat → ℂ) → Nat → ℂ)
    (L a M : Int) (pl : IwfacPlan) (hinit : iwfac_init L a M = .ok pl)
    (R : Nat) (hR : 0 < R) (gf : Nat → ℂ) (g0 : Nat → ℂ) (g0r : Nat → ℝ)
    {r w l k s : Nat} (hr : r < pl.c) (hw : w < R) (hl : l < pl.q)
    (hk : k < pl.p) (hs : s < pl.d) :
    (iwfac_execute dft (some pl) (some gf) (R : Int) (some g0)).1 =
        Success ∧
    (iwfac_execute_real dft (some pl) (some gf) (R : Int) (some g0r)).1 =
        Success ∧
    ((iwfac_execute dft (some pl) (some gf) (R : Int) (some g0)).2.getD g0)
        (posIdx pl r w l k s) =
      dft pl.d (sbufLoad pl R gf (tIdx pl R r w l k)) s ∧
    ((iwfac_execute_real dft (some pl) (some gf) (R : Int)
        (some g0r)).2.getD g0r) (posIdx pl r w l k s) =
      (dft pl.d (sbufLoad pl R gf (tIdx pl R r w l k)) s).re := by
  have hv := (iwfac_init_ok L a M pl hinit).2.2.2.2.1
  have hRZ : (R : Int) > 0 := by exact_mod_cast hR
  have hexec : iwfac_execute dft (some pl) (some gf) (R : Int) (some g0) =
      (Success, some (iwfac_core dft pl R gf id g0)) := by
    simp only [iwfac_execute, if_neg (not_not_intro hRZ), Int.toNat_natCast]
  have hexecR : iwfac_execute_real dft (some pl) (some gf) (R : Int)
      (some g0r) = (Success, some (iwfac_core dft pl R gf Complex.re g0r)) := by
    simp only [iwfac_execute_real, if_neg (not_not_intro hRZ),
      Int.toNat_natCast]
  refine ⟨by rw [hexec], by rw [hexecR], ?_, ?_⟩
  · rw [hexec]
    simpa using iwfac_core_apply dft pl R gf id hv hr hw hl hk hs g0
  · rw [hexecR]
    simpa using iwfac_core_apply dft pl R gf Complex.re hv hr hw hl hk hs g0r

/-- Witness for C1 at the lattice `L = a = M = 1`, `R = 1`, with the
identity in place of the transform. -/
theorem c1_execute_witness :
    iwfac_init 1 1 1 = .ok ⟨1, 1, 1, 1, 1, 1, 1, 1⟩ ∧
    (((iwfac_execute (fun _ x => x) (some ⟨1, 1, 1, 1, 1, 1, 1, 1⟩)
        (some fun _ => 1) ((1 : Nat) : Int) (some fun _ => 0)).2.getD
          (fun _ => 0))
        (posIdx ⟨1, 1, 1, 1, 1, 1, 1, 1⟩ 0 0 0 0 0) =
      (fun (_ : Nat) (x : Nat → ℂ) => x) 1
        (sbufLoad ⟨1, 1, 1, 1, 1, 1, 1, 1⟩ 1 (fun _ => 1)
          (tIdx ⟨1, 1, 1, 1, 1, 1, 1, 1⟩ 1 0 0 0 0)) 0) :=
  ⟨by rfl,
    (c1_execute_strides_and_writes (fun _ x => x) 1 1 1
      ⟨1, 1, 1, 1, 1, 1, 1, 1⟩ (by rfl) 1 (by decide) (fun _ => 1)
      (fun _ => 0) (fun _ => 0) (by decide) (by decide) (by decide)
      (by decide) (by decide)).2.2.1⟩

/-- The lattice `L = 2, a = 1, M = 1`: the plan produced by
`iwfac_init 2 1 1` (here `d = 2`). -/
def plan211 : IwfacPlan := ⟨2, 1, 1, 1, 2, 1, 1, 2⟩

/-- A discrete delta window of length 2. -/
def delta0 : Nat → ℂ := fun n => if n = 0 then 1 else 0

/-- C2 counterexample: with the spec's scalings `sqrt(M)/d` (wfac,
modelled from the spec) and `1/(sqrt(M)·d)` (iwfac, from the source)
and the unnormalized DFT pair, `iwfac(wfac(g))` is `g/d`, not `g`:
at `L = 2, a = M = R = 1`, `g = δ₀`, the sample at index 0 comes back
as `1/2 ≠ 1`. -/
theorem c2_roundtrip_counterexample :
    ((iwfac dftBwd (some (wfacM plan211 1 delta0)) 2 1 1 1
        (some fun _ => 0)).2.getD (fun _ => 0)) 0 ≠ delta0 0 := by
  have hv : plan211.valid := by decide
  have hred : ((iwfac dftBwd (some (wfacM plan211 1 delta0)) 2 1 1 1
      (some fun _ => 0)).2.getD (fun _ => 0)) =
      iwfac_core dftBwd plan211 1 (wfacM plan211 1 delta0) id
        (fun _ => 0) := rfl
  rw [hred]
  have hpos : posIdx plan211 0 0 0 0 0 = 0 := by decide
  have h := roundtrip_fwd_pointwise plan211 1 delta0 (fun _ => 0) hv
    (by decide) (r := 0) (w := 0) (l := 0) (k := 0) (s := 0)
    (by decide) (by decide) (by decide) (by decide) (by decide)
  rw [hpos] at h
  rw [h]
  have h0 : delta0 0 = 1 := by simp [delta0]
  rw [h0]
  have hd : (plan211.d : ℂ) = 2 := by norm_num [plan211]
  rw [hd]
  norm_num

/-- C2 amended: the factorization round-trips up to the factor `1/d`
(not exactly): `iwfac(wfac(g)) = g/d` and `wfac(iwfac(gf)) = gf/d`
on every buffer index below `L·R`, and the iwfac scaling constant
`1/(sqrt(M)·d)` and the wfac scaling `sqrt(M)/d` compose with the
unnormalized forward/backward length-`d` DFT pair to `1/d`, not to
the identity. -/
theorem c2_roundtrip_scaled (L a M : Int) (pl : IwfacPlan)
    (hinit : iwfac_init L a M = .ok pl) (R : Nat) (hR : 0 < R)
    (g gf g0 g1 : Nat → ℂ) :
    (∀ n < pl.L * R,
      ((iwfac dftBwd (some (wfacM pl R g)) L (R : Int) a M
          (some g0)).2.getD g0) n = g n / pl.d) ∧
    (∀ n < pl.L * R,
      wfacM pl R (iwfac_core dftBwd pl R gf id g1) n = gf n / pl.d) ∧
    (pl.scaling : ℂ) * ((Real.sqrt pl.M / pl.d : ℝ) : ℂ) * (pl.d : ℂ) =
      1 / (pl.d : ℂ) := by
  have hv := (iwfac_init_ok L a M pl hinit).2.2.2.2.1
  have hRZ : (R : Int) > 0 := by exact_mod_cast hR
  have hdrv : ((iwfac dftBwd (some (wfacM pl R g)) L (R : Int) a M
      (some g0)).2.getD g0) =
      iwfac_core dftBwd pl R (wfacM pl R g) id g0 := by
    unfold iwfac
    rw [hinit]
    simp only [iwfac_execute, if_neg (not_not_intro hRZ),
      Int.toNat_natCast, Option.getD_some]
  refine ⟨?_, ?_, scaling_composite pl hv⟩
  · intro n hn
    rw [hdrv]
    obtain ⟨r, w, l, k, s, hr, hw, hl, hk, hs, hn'⟩ :=
      exists_posIdx_decode pl R hv hn
    rw [← hn']
    exact roundtrip_fwd_pointwise pl R g g0 hv hR hr hw hl hk hs
  · intro n hn
    obtain ⟨r, w, l, k, s, hr, hw, hl, hk, hs, hn'⟩ :=
      exists_tIdx_decode pl R hv hR hn
    rw [hn']
    exact roundtrip_bwd_pointwise pl R gf g1 hv hR hr hw hl hk hs

/-- Witness for the amended C2 at `L = 2, a = M = R = 1`. -/
theorem c2_roundtrip_scaled_witness :
    iwfac_init 2 1 1 = .ok plan211 ∧ (0 : Nat) < plan211.L * 1 ∧
    ((iwfac dftBwd (some (wfacM plan211 1 delta0)) 2 ((1 : Nat) : Int) 1 1
        (some fun _ => 0)).2.getD (fun _ => 0)) 0 = delta0 0 / plan211.d :=
  ⟨by rfl, by decide,
    (c2_roundtrip_scaled 2 1 1 plan211 (by rfl) 1 (by decide) delta0
      (fun _ => 0) (fun _ => 0) (fun _ => 0)).1 0 (by decide)⟩

/-- The lattice `L = 4, a = 2, M = 2`: the plan produced by
`iwfac_init 4 2 2` (here `c = 2`, so `p·q·d = L/c = 2 < L`). -/
def plan422 : IwfacPlan := ⟨2, 2, 1, 1, 2, 2, 2, 4⟩

/-- C3 counterexample: on the lattice `L = 4, a = 2, M = 2` the
`(l, k, s)` iteration hits only `p·q·d = L/c = 2` distinct residues
per `(r, w)` block, not `L = 4` as the claim states. -/
theorem c3_residue_count_counterexample :
    iwfac_init 4 2 2 = .ok plan422 ∧
    ((Finset.range plan422.q ×ˢ Finset.range plan422.p ×ˢ
        Finset.range plan422.d).image
        (fun t => remFun plan422 t.1 t.2.1 t.2.2)).card = 2 ∧
    plan422.L = 4 ∧ (2 : Nat) ≠ 4 :=
  ⟨by rfl, by decide, by rfl, by decide⟩

/-- C3 amended: per `(r, w)` block the `(l, k, s)` iteration
enumerates `p·q·d = L/c` distinct residues (not `L`; they coincide
only when `c = 1`), and globally no two writes of one execute
collide: the output index determines `(r, w, l, k, s)`. -/
theorem c3_residues_distinct (L a M : Int) (pl : IwfacPlan)
    (hinit : iwfac_init L a M = .ok pl) :
    ((Finset.range pl.q ×ˢ Finset.range pl.p ×ˢ
        Finset.range pl.d).image
        (fun t => remFun pl t.1 t.2.1 t.2.2)).card =
      pl.p * pl.q * pl.d ∧
    pl.c * (pl.p * pl.q * pl.d) = pl.L ∧
    (∀ r w l k s r' w' l' k' s', r < pl.c → l < pl.q → k < pl.p →
      s < pl.d → r' < pl.c → l' < pl.q → k' < pl.p → s' < pl.d →
      posIdx pl r w l k s = posIdx pl r' w' l' k' s' →
      r = r' ∧ w = w' ∧ l = l' ∧ k = k' ∧ s = s') := by
  have hv := (iwfac_init_ok L a M pl hinit).2.2.2.2.1
  refine ⟨?_, ?_, ?_⟩
  · rw [Finset.card_image_of_injOn, Finset.card_product,
      Finset.card_product]
    · simp only [Finset.card_range]
      ring
    · intro t1 h1 t2 h2 heq
      simp only [Finset.mem_product, Finset.mem_coe, Finset.mem_range] at h1 h2
      simp only at heq
      rw [remFun_eq_c_mul_uVal pl hv, remFun_eq_c_mul_uVal pl hv] at heq
      have hu := Nat.eq_of_mul_eq_mul_left hv.1 heq
      obtain ⟨e1, e2, e3⟩ := uVal_inj pl hv h1.1 h1.2.1 h1.2.2 h2.1
        h2.2.1 h2.2.2 hu
      obtain ⟨x1, y1, z1⟩ := t1
      obtain ⟨x2, y2, z2⟩ := t2
      simp only at e1 e2 e3
      simp [e1, e2, e3]
  · rw [hv.2.2.2.2.2.2.1]; ring
  · intro r w l k s r' w' l' k' s' h1 h2 h3 h4 h5 h6 h7 h8 heq
    exact posIdx_inj pl hv h1 h2 h3 h4 h5 h6 h7 h8 heq

/-- Witness for the amended C3 on the lattice `L = 4, a = 2, M = 2`. -/
theorem c3_residues_distinct_witness :
    iwfac_init 4 2 2 = .ok plan422 ∧
    ((Finset.range plan422.q ×ˢ Finset.range plan422.p ×ˢ
        Finset.range plan422.d).image
        (fun t => remFun plan422 t.1 t.2.1 t.2.2)).card =
      plan422.p * plan422.q * plan422.d :=
  ⟨by rfl, (c3_residues_distinct 4 2 2 plan422 (by rfl)).1⟩

/-- C4: every output index `r + rem + L·w` formed during
`iwfac_execute` — with `r < c`, `rem = ((negrem + s·p·M) mod L) < L`,
`w < R` — lies in `[0, L·R)`: both for the loop coordinates and for
every entry of the write list of one execute call. -/
theorem c4_output_index_in_bounds (dft : Nat → (Nat → ℂ) → Nat → ℂ)
    (L a M : Int) (pl : IwfacPlan) (hinit : iwfac_init L a M = .ok pl)
    (R : Nat) (gf : Nat → ℂ) :
    (∀ r w l k s, r < pl.c → w < R →
      posIdx pl r w l k s < pl.L * R) ∧
    (∀ iv ∈ iwfacWrites dft pl R gf, iv.1 < pl.L * R) := by
  have hv := (iwfac_init_ok L a M pl hinit).2.2.2.2.1
  constructor
  · intro r w l k s hr hw
    exact posIdx_lt_LR pl hv l k s hr hw
  · intro iv hiv
    unfold iwfacWrites innerWrites at hiv
    simp only [List.mem_flatMap, List.mem_map, List.mem_range] at hiv
    obtain ⟨r, hr, w, hw, l, hl, k, hk, s, hs, hsv⟩ := hiv
    rw [← hsv]
    exact posIdx_lt_LR pl hv l k s hr hw

/-- Witness for C4 on the lattice `L = 4, a = 2, M = 2`, `R = 1`. -/
theorem c4_output_index_in_bounds_witness :
    iwfac_init 4 2 2 = .ok plan422 ∧ (0 : Nat) < plan422.c ∧
    posIdx plan422 0 0 0 0 1 < plan422.L * 1 :=
  ⟨by rfl, by decide,
    (c4_output_index_in_bounds (fun _ x => x) 4 2 2 plan422 (by rfl) 1
      (fun _ => 0)).1 0 0 0 0 1 (by decide) (by decide)⟩

/-- C5 counterexample: `iwfac` with `R = 0, L = 7, a = 2, M = 3`
returns `BadArgument` (the init runs first and `7 mod lcm(2,3) = 1`),
not `NotPositiveArg`; and `iwfac` with `M = 2, a = 3` on the valid
lattice `L = 6, R = 1` returns `Success`, not `NotAFrame` (`iwfac`
has no frame check). -/
theorem c5_error_surfaces_counterexample :
    (iwfac (fun _ x => x) (some fun _ => 0) 7 0 2 3
        (some fun _ => 0)).1 = BadArgument ∧
    BadArgument ≠ NotPositiveArg ∧
    (iwfac (fun _ x => x) (some fun _ => 0) 6 1 3 2
        (some fun _ => 0)).1 = Success ∧
    Success ≠ NotAFrame :=
  ⟨by rfl, by decide, by rfl, by decide⟩

/-- C5 amended: with a valid length (`L = 6`), `R = 0` makes `iwfac`
return `NotPositiveArg`; `L = 5, a = 2, M = 3` returns `BadArgument`
for every `R`; `iwfac` performs no frame check, so `M = 2, a = 3` on
a valid lattice returns `Success`; the `NotAFrame` surface for
`M < a` belongs to `gabdual_long`. -/
theorem c5_error_surfaces (dft : Nat → (Nat → ℂ) → Nat → ℂ)
    (gf g : Nat → ℂ) (facF : (Nat → ℂ) → Nat → ℂ) (fs : LtfatStatus)
    (gw : Nat → ℂ) :
    (∀ R : Int, R ≤ 0 →
      (iwfac dft (some gf) 6 R 2 3 (some g)).1 = NotPositiveArg) ∧
    (∀ R : Int, (iwfac dft (some gf) 5 R 2 3 (some g)).1 = BadArgument) ∧
    (iwfac dft (some gf) 6 1 3 2 (some g)).1 = Success ∧
    (∀ R : Int, 0 < R →
      (gabdual_long facF fs gw 6 R 3 2).status = NotAFrame) := by
  refine ⟨?_, ?_, ?_, ?_⟩
  · intro R hR
    have hred : iwfac_init 6 2 3 = .ok ⟨2, 1, 2, 3, 1, 2, 3, 6⟩ := by rfl
    unfold iwfac
    rw [hred]
    simp only [iwfac_execute]
    rw [if_pos (by omega : ¬R > 0)]
  · intro R
    have hred : iwfac_init 5 2 3 = .error BadArgument := by rfl
    unfold iwfac
    rw [hred]
  · rfl
  · intro R hR
    unfold gabdual_long
    rw [if_neg (not_not_intro hR), if_pos (by decide : ¬(2 : Int) ≥ 3)]

/-- Witness for the amended C5 at `R = 0` and `R = 1`. -/
theorem c5_error_surfaces_witness :
    (iwfac (fun _ x => x) (some fun _ => 0) 6 0 2 3
        (some fun _ => 0)).1 = NotPositiveArg ∧
    (iwfac (fun _ x => x) (some fun _ => 0) 5 1 2 3
        (some fun _ => 0)).1 = BadArgument ∧
    (gabdual_long (fun x => x) Success (fun _ => 0) 6 1 3 2).status =
      NotAFrame :=
  ⟨(c5_error_surfaces (fun _ x => x) (fun _ => 0) (fun _ => 0)
      (fun x => x) Success (fun _ => 0)).1 0 (by decide),
    (c5_error_surfaces (fun _ x => x) (fun _ => 0) (fun _ => 0)
      (fun x => x) Success (fun _ => 0)).2.1 1,
    (c5_error_surfaces (fun _ x => x) (fun _ => 0) (fun _ => 0)
      (fun x => x) Success (fun _ => 0)).2.2.2 1 (by decide)⟩

/-- C6 counterexample: with a valid plan and `R = 0`,
`iwfac_execute` returns `NotPositiveArg` (the C code checks
`CHECK(LTFATERR_NOTPOSARG, R > 0, ...)`), not `BadArgument`. -/
theorem c6_execute_notposarg_counterexample :
    (iwfac_execute (fun _ x => x) (iwfac_init 6 2 3).toOption
        (some fun _ => 0) 0 (some fun _ => 0)).1 = NotPositiveArg ∧
    NotPositiveArg ≠ BadArgument :=
  ⟨by rfl, by decide⟩

/-- C6 amended: `iwfac_execute` returns `NullArg` if any of its
pointer arguments (plan, gf, g) is null, `NotPositiveArg` (not
`BadArgument`) if `R ≤ 0`, and otherwise always `Success`. -/
theorem c6_execute_statuses (dft : Nat → (Nat → ℂ) → Nat → ℂ) :
    (∀ (R : Int) gf? g?,
      (iwfac_execute dft none gf? R g?).1 = NullArg) ∧
    (∀ pl (R : Int) g?,
      (iwfac_execute dft (some pl) none R g?).1 = NullArg) ∧
    (∀ pl (R : Int) gf,
      (iwfac_execute dft (some pl) (some gf) R none).1 = NullArg) ∧
    (∀ pl (R : Int) gf g, R ≤ 0 →
      (iwfac_execute dft (some pl) (some gf) R (some g)).1 =
        NotPositiveArg) ∧
    (∀ pl (R : Int) gf g, 0 < R →
      (iwfac_execute dft (some pl) (some gf) R (some g)).1 = Success) := by
  refine ⟨?_, ?_, ?_, ?_, ?_⟩
  · intro R gf? g?
    cases gf? <;> cases g? <;> rfl
  · intro pl R g?
    cases g? <;> rfl
  · intro pl R gf
    rfl
  · intro pl R gf g hR
    simp only [iwfac_execute]
    rw [if_pos (by omega : ¬R > 0)]
  · intro pl R gf g hR
    simp only [iwfac_execute]
    rw [if_neg (not_not_intro hR)]

/-- Witness for the amended C6. -/
theorem c6_execute_statuses_witness :
    (iwfac_execute (fun _ x => x) none none 1 none).1 = NullArg ∧
    (iwfac_execute (fun _ x => x) (some plan211) (some fun _ => 0) 0
        (some fun _ => 0)).1 = NotPositiveArg ∧
    (iwfac_execute (fun _ x => x) (some plan211) (some fun _ => 0) 1
        (some fun _ => 0)).1 = Success :=
  ⟨(c6_execute_statuses (fun _ x => x)).1 1 none none,
    (c6_execute_statuses (fun _ x => x)).2.2.2.1 plan211 0 (fun _ => 0)
      (fun _ => 0) (by decide),
    (c6_execute_statuses (fun _ x => x)).2.2.2.2 plan211 1 (fun _ => 0)
      (fun _ => 0) (by decide)⟩

/-- C7 counterexample: lattice validation with a non-positive `a`
returns `NotPositiveArg` (`CHECK(LTFATERR_NOTPOSARG, a > 0, ...)`),
not `BadArgument` as the claim states. -/
theorem c7_nonpos_counterexample :
    iwfac_init 6 0 3 = .error NotPositiveArg ∧
    NotPositiveArg ≠ BadArgument :=
  ⟨by rfl, by decide⟩

/-- C7 amended: validation fails with `NotPositiveArg` (not
`BadArgument`) when `a` or `M` is non-positive, with `BadArgument`
when `L ≤ 0` or `L mod lcm(a,M) ≠ 0`; `iwfac_init` itself never
returns `NotAFrame` — the `M < a` check lives in `gabdual_long`; on
success the derived parameters are `c = gcd(a,M)`, `p = a/c`,
`q = M/c`, `b = L/M`, `d = b/p = L/(a·q)`, all positive integers
(packaged in `IwfacPlan.valid`). -/
theorem c7_lattice_validation :
    (∀ L a M : Int, a ≤ 0 ∨ M ≤ 0 →
      iwfac_init L a M = .error NotPositiveArg) ∧
    (∀ L a M : Int, 0 < a → 0 < M → ¬(L > 0 ∧ L % Int.lcm a M = 0) →
      iwfac_init L a M = .error BadArgument) ∧
    (∀ L a M : Int, iwfac_init L a M ≠ .error NotAFrame) ∧
    (∀ (facF : (Nat → ℂ) → Nat → ℂ) (fs : LtfatStatus) (g : Nat → ℂ)
      (L R a M : Int), 0 < R → M < a →
      (gabdual_long facF fs g L R a M).status = NotAFrame) ∧
    (∀ (L a M : Int) pl, iwfac_init L a M = .ok pl →
      pl.valid ∧ pl.c = Nat.gcd a.toNat M.toNat ∧
      pl.p = a.toNat / pl.c ∧ pl.q = M.toNat / pl.c ∧
      pl.b = L.toNat / M.toNat ∧ pl.d = pl.b / pl.p ∧
      pl.d = L.toNat / (a.toNat * pl.q)) := by
  refine ⟨iwfac_init_nonpos, iwfac_init_badL, iwfac_init_no_notaframe,
    ?_, ?_⟩
  · intro facF fs g L R a M hR hMa
    unfold gabdual_long
    rw [if_neg (not_not_intro hR), if_pos (by omega : ¬M ≥ a)]
  · intro L a M pl h
    obtain ⟨-, -, -, -, h5, -, -, -, h9, h10, h11, h12, h13, h14⟩ :=
      iwfac_init_ok L a M pl h
    exact ⟨h5, h9, h10, h11, h12, h13, h14⟩

/-- Witness for the amended C7. -/
theorem c7_lattice_validation_witness :
    iwfac_init 6 0 3 = .error NotPositiveArg ∧
    iwfac_init 5 2 3 = .error BadArgument ∧
    (gabdual_long (fun x => x) Success (fun _ => 0) 6 1 3 2).status =
      NotAFrame ∧
    (plan422.valid ∧ plan422.c = Nat.gcd (2 : Int).toNat (2 : Int).toNat ∧
      plan422.p = (2 : Int).toNat / plan422.c ∧
      plan422.q = (2 : Int).toNat / plan422.c ∧
      plan422.b = (4 : Int).toNat / (2 : Int).toNat ∧
      plan422.d = plan422.b / plan422.p ∧
      plan422.d = (4 : Int).toNat / ((2 : Int).toNat * plan422.q)) :=
  ⟨c7_lattice_validation.1 6 0 3 (Or.inl (by decide)),
    c7_lattice_validation.2.1 5 2 3 (by decide) (by decide) (by decide),
    c7_lattice_validation.2.2.2.1 (fun x => x) Success (fun _ => 0) 6 1 3 2
      (by decide) (by decide),
    c7_lattice_validation.2.2.2.2 4 2 2 plan422 (by rfl)⟩

/-- Evaluation of `gabdual_long` on the success path: validation
passes, both factor buffers are allocated and released, and the
output is `iwfac ∘ gabdual_fac ∘ wfac` applied to `g`. -/
theorem gabdual_long_eval_ok (facF : (Nat → ℂ) → Nat → ℂ)
    (fs : LtfatStatus) (g : Nat → ℂ) (L R a M : Int) (pl : IwfacPlan)
    (hR : 0 < R) (hMa : M ≥ a) (hinit : iwfac_init L a M = .ok pl) :
    gabdual_long facF fs g L R a M =
      ⟨Success,
        some (iwfac_core dftBwd pl R.toNat (facF (wfacM pl R.toNat g)) id
          (fun _ => 0)),
        [.alloc (L * R).toNat, .alloc (L * R).toNat, .free, .free]⟩ := by
  obtain ⟨-, -, hL0, hLmod, -⟩ := iwfac_init_ok L a M pl hinit
  unfold gabdual_long
  rw [if_neg (not_not_intro hR), if_neg (not_not_intro hMa),
    if_neg (not_not_intro ⟨hL0, hLmod⟩), hinit]

/-- Evaluation of `gabdual_long` when the (modelled) `wfac` plan-init
fails after validation: both buffers are still released and the
sub-step's error code is returned unchanged. -/
theorem gabdual_long_eval_err (facF : (Nat → ℂ) → Nat → ℂ)
    (fs : LtfatStatus) (g : Nat → ℂ) (L R a M : Int) (e : LtfatStatus)
    (hR : 0 < R) (hMa : M ≥ a) (hLok : L > 0 ∧ L % Int.lcm a M = 0)
    (hinit : iwfac_init L a M = .error e) :
    gabdual_long facF fs g L R a M =
      ⟨e, none,
        [.alloc (L * R).toNat, .alloc (L * R).toNat, .free, .free]⟩ := by
  unfold gabdual_long
  rw [if_neg (not_not_intro hR), if_neg (not_not_intro hMa),
    if_neg (not_not_intro hLok), hinit]

/-- C8 counterexample: the status reported by the factor-domain
solve `gabdual_fac` (modelled from spec section 4.5, which allows it
to fail with `NotAFrame`) is discarded by `gabdual_long` — the bare
call at line 27 of `gabdual.c` has no `CHECKSTATUS` — so with the
solve reporting `NotAFrame` the driver still returns `Success`. -/
theorem c8_fac_status_discarded_counterexample :
    (gabdual_long (fun x => x) NotAFrame (fun _ => 0) 6 1 2 3).status =
      Success ∧ Success ≠ NotAFrame :=
  ⟨by rfl, by decide⟩

/-- C8 amended: `gabdual_long` validates `R > 0` (`NotPositiveArg`),
`M ≥ a` (`NotAFrame`) and divisibility (`BadArgument`); on the
success path it allocates exactly two factor buffers of `L·R`
complex elements, composes `wfac`, then `gabdual_fac`, then `iwfac`,
and releases both buffers; on a `wfac`/`iwfac` plan-init failure
after validation both buffers are released and that error code is
returned unchanged — but the status reported by `gabdual_fac`
itself is discarded, never surfaced. -/
theorem c8_gabdual_long_driver (facF : (Nat → ℂ) → Nat → ℂ)
    (fs : LtfatStatus) (g : Nat → ℂ) (L R a M : Int) :
    (R ≤ 0 → gabdual_long facF fs g L R a M =
      ⟨NotPositiveArg, none, []⟩) ∧
    (0 < R → M < a → gabdual_long facF fs g L R a M =
      ⟨NotAFrame, none, []⟩) ∧
    (0 < R → M ≥ a → ¬(L > 0 ∧ L % Int.lcm a M = 0) →
      gabdual_long facF fs g L R a M = ⟨BadArgument, none, []⟩) ∧
    (∀ e, 0 < R → M ≥ a → iwfac_init L a M = .error e →
      (L > 0 ∧ L % Int.lcm a M = 0) →
      gabdual_long facF fs g L R a M = ⟨e, none,
        [.alloc (L * R).toNat, .alloc (L * R).toNat, .free, .free]⟩) ∧
    (∀ pl, 0 < R → M ≥ a → iwfac_init L a M = .ok pl →
      gabdual_long facF fs g L R a M =
        ⟨Success,
          some (iwfac_core dftBwd pl R.toNat
            (facF (wfacM pl R.toNat g)) id (fun _ => 0)),
          [.alloc (L * R).toNat, .alloc (L * R).toNat, .free,
            .free]⟩) := by
  refine ⟨?_, ?_, ?_, ?_, ?_⟩
  · intro hR
    unfold gabdual_long
    rw [if_pos (by omega : ¬R > 0)]
  · intro hR hMa
    unfold gabdual_long
    rw [if_neg (not_not_intro hR), if_pos (by omega : ¬M ≥ a)]
  · intro hR hMa hbad
    unfold gabdual_long
    rw [if_neg (not_not_intro hR), if_neg (not_not_intro hMa),
      if_pos hbad]
  · intro e hR hMa hinit hLok
    exact gabdual_long_eval_err facF fs g L R a M e hR hMa hLok hinit
  · intro pl hR hMa hinit
    exact gabdual_long_eval_ok facF fs g L R a M pl hR hMa hinit

/-- Witness for the amended C8: a success run on `L = 6, a = 2,
M = 3, R = 1` and an error propagation run with `a = -2` (validation
passes since `lcm(-2,3) = 6` divides `6`, then the `wfac` plan-init
rejects `a ≤ 0` and `gabdual_long` surfaces its `NotPositiveArg`). -/
theorem c8_gabdual_long_driver_witness :
    gabdual_long (fun x => x) Success (fun _ => 0) 6 1 2 3 =
      ⟨Success,
        some (iwfac_core dftBwd ⟨2, 1, 2, 3, 1, 2, 3, 6⟩ (1 : Int).toNat
          ((fun x => x) (wfacM ⟨2, 1, 2, 3, 1, 2, 3, 6⟩ (1 : Int).toNat
            (fun _ => 0))) id (fun _ => 0)),
        [.alloc ((6 : Int) * 1).toNat, .alloc ((6 : Int) * 1).toNat,
          .free, .free]⟩ ∧
    gabdual_long (fun x => x) Success (fun _ => 0) 6 1 (-2) 3 =
      ⟨NotPositiveArg, none,
        [.alloc ((6 : Int) * 1).toNat, .alloc ((6 : Int) * 1).toNat,
          .free, .free]⟩ :=
  ⟨(c8_gabdual_long_driver (fun x => x) Success (fun _ => 0) 6 1 2
      3).2.2.2.2 ⟨2, 1, 2, 3, 1, 2, 3, 6⟩ (by decide) (by decide)
      (by rfl),
    (c8_gabdual_long_driver (fun x => x) Success (fun _ => 0) 6 1 (-2)
      3).2.2.2.1 NotPositiveArg (by decide) (by decide) (by rfl)
      (by decide)⟩

/-- Reduction of `gabdual_fir` past its null checks (the `g` and
`gd` pointers are non-null). -/
theorem gabdual_fir_some_eval (facF : (Nat → ℂ) → Nat → ℂ)
    (fs : LtfatStatus) (g : Nat → ℂ) (gl L a M gdl : Int) :
    gabdual_fir facF fs (some g) false gl L a M gdl =
      if ¬gl > 0 then ⟨NotPositiveArg, none, []⟩
      else if ¬L > 0 then ⟨NotPositiveArg, none, []⟩
      else if ¬gdl > 0 then ⟨NotPositiveArg, none, []⟩
      else if ¬(L ≥ gl ∧ L ≥ gdl) then ⟨BadArgument, none, []⟩
      else
        let tmp := fir2long g gl.toNat L.toNat
        let res := gabdual_long facF fs tmp L 1 a M
        match res.status, res.gd with
        | Success, some gdLong =>
            ⟨Success, some (long2fir gdLong L.toNat gdl.toNat),
              .alloc L.toNat :: res.events ++ [.free]⟩
        | Success, none =>
            ⟨Success, none, .alloc L.toNat :: res.events ++ [.free]⟩
        | e, _ => ⟨e, none, .alloc L.toNat :: res.events ++ [.free]⟩ :=
  rfl

/-- C9: for an FIR window of length `gl ≤ L` with `gdl = gl` on a
valid lattice, `gabdual_fir(g, gl, L, a, M, gl, gd)` succeeds and
equals `long2fir(gabdual_long(fir2long(g, gl, L), L, 1, a, M), L,
gl)` pointwise (the model of the in-place length-`L` temporary); and
on every exit path of `gabdual_fir`, errors included, the temporary
is released — the events are either empty (nothing was allocated) or
begin with its allocation and end with its release. -/
theorem c9_fir_long_equivalence (facF : (Nat → ℂ) → Nat → ℂ)
    (fs : LtfatStatus) (g : Nat → ℂ) (gl L a M : Int) (pl : IwfacPlan)
    (hgl : 0 < gl) (hLgl : L ≥ gl) (hMa : M ≥ a)
    (hinit : iwfac_init L a M = .ok pl) :
    (gabdual_fir facF fs (some g) false gl L a M gl).status = Success ∧
    (gabdual_fir facF fs (some g) false gl L a M gl).gd =
      some (long2fir
        ((gabdual_long facF fs (fir2long g gl.toNat L.toNat) L 1 a
          M).gd.getD (fun _ => 0)) L.toNat gl.toNat) ∧
    (∀ (g? : Option (Nat → ℂ)) (gdN : Bool) (gl' L' a' M' gdl' : Int),
      (gabdual_fir facF fs g? gdN gl' L' a' M' gdl').events = [] ∨
      ∃ mid, (gabdual_fir facF fs g? gdN gl' L' a' M' gdl').events =
        .alloc L'.toNat :: (mid ++ [.free])) := by
  have hL0 := (iwfac_init_ok L a M pl hinit).2.2.1
  have hlong := gabdual_long_eval_ok facF fs
    (fir2long g gl.toNat L.toNat) L 1 a M pl (by norm_num) hMa hinit
  have hfir : gabdual_fir facF fs (some g) false gl L a M gl =
      ⟨Success,
        some (long2fir (iwfac_core dftBwd pl (1 : Int).toNat
          (facF (wfacM pl (1 : Int).toNat (fir2long g gl.toNat L.toNat)))
          id (fun _ => 0)) L.toNat gl.toNat),
        .alloc L.toNat ::
          [.alloc (L * 1).toNat, .alloc (L * 1).toNat, .free, .free] ++
            [.free]⟩ := by
    rw [gabdual_fir_some_eval]
    rw [if_neg (not_not_intro hgl), if_neg (not_not_intro hL0),
      if_neg (not_not_intro hgl), if_neg (not_not_intro ⟨hLgl, hLgl⟩)]
    simp only [hlong]
  refine ⟨by rw [hfir], ?_, ?_⟩
  · rw [hfir, hlong]
    rfl
  · intro g? gdN gl' L' a' M' gdl'
    cases g? with
    | none => exact Or.inl rfl
    | some gg =>
      cases gdN with
      | true => exact Or.inl rfl
      | false =>
        rw [gabdual_fir_some_eval]
        split_ifs
        all_goals try exact Or.inl rfl
        refine Or.inr
          ⟨(gabdual_long facF fs (fir2long gg gl'.toNat L'.toNat) L' 1
            a' M').events, ?_⟩
        rcases hrec : gabdual_long facF fs
          (fir2long gg gl'.toNat L'.toNat) L' 1 a' M' with ⟨st, gd?, ev⟩
        simp only [hrec]
        cases st <;> cases gd? <;> rfl

/-- Witness for C9 at `gl = 1, L = 1, a = M = 1`. -/
theorem c9_fir_long_equivalence_witness :
    iwfac_init 1 1 1 = .ok ⟨1, 1, 1, 1, 1, 1, 1, 1⟩ ∧
    (gabdual_fir (fun x => x) Success (some fun _ => 1) false 1 1 1 1
        1).status = Success :=
  ⟨by rfl,
    (c9_fir_long_equivalence (fun x => x) Success (fun _ => 1) 1 1 1 1
      ⟨1, 1, 1, 1, 1, 1, 1, 1⟩ (by decide) (by decide) (by decide)
      (by rfl)).1⟩

/-- C10: a successful `iwfac_done` destroys the FFT plan, frees the
scratch buffer and the plan object, and nulls the caller's handle;
a second `iwfac_done` through the same (now-nulled) handle variable
returns `NullArg` and performs no resource action. -/
theorem c10_done_nulls_handle (pl : IwfacPlan) :
    iwfac_done (some (some pl)) =
      (Success, some none, [.destroyFftPlan, .free, .free]) ∧
    iwfac_done ((iwfac_done (some (some pl))).2.1) =
      (NullArg, some none, []) :=
  ⟨rfl, rfl⟩

end Ltfat
